import Mathlib

/-!
Verification of the H5P answer extractor (`h5p_answer_extractor.py`,
`extract_answers.py`).  The Python functions are shallowly embedded as
executable Lean definitions over a `Json` tree type mirroring the values
produced by `json.loads`.  Python exceptions that abort a run (TypeError,
AttributeError, ValueError escaping its handler, …) are modelled by
`Except Unit`; `Except.error ()` means "the extraction run aborts with an
uncaught exception".  Recursive text scanners use an explicit fuel argument
(initialised with the input length, which is always sufficient) so that all
definitions are structurally recursive and evaluate by kernel reduction.
-/

namespace H5P

/-! ### Python character/whitespace model

`pyWsChars` lists the characters matched by Python's `\s` regex class and
stripped by `str.strip()` (ASCII whitespace plus the Unicode space
characters recognised by CPython). -/

def pyWsChars : List Char :=
  [' ', '\t', '\n', '\r', '\x0b', '\x0c',
   '\x1c', '\x1d', '\x1e', '\x1f', '\x85', '\xa0',
   ' ', ' ', ' ', ' ', ' ', ' ', ' ',
   ' ', ' ', ' ', ' ', ' ',
   ' ', ' ', ' ', ' ', '　']

def pyIsSpace (c : Char) : Bool := pyWsChars.contains c

/-- `startsWithL p l` : `p` is an initial segment of `l`. -/
def startsWithL : List Char → List Char → Bool
  | [], _ => true
  | _ :: _, [] => false
  | a :: as, b :: bs => a == b && startsWithL as bs

/-- Substring test on character lists, the semantics of Python's
`needle in haystack` for strings. -/
def hasSubL (pat : List Char) : List Char → Bool
  | [] => pat.isEmpty
  | c :: rest => startsWithL pat (c :: rest) || hasSubL pat rest

def strContains (s pat : String) : Bool := hasSubL pat.data s.data

/-! ### The regex `<[^>]+>` (tag removal), `&nbsp;`, `&[a-zA-Z]+;`, `\s+`
substitutions of `_clean_html_text`, modelled as left-to-right
non-overlapping scans exactly like `re.sub`. -/

/-- Scan to just past the first `'>'`; `none` when there is no `'>'`. -/
def tagClose : List Char → Option (List Char)
  | [] => none
  | c :: rest => if c = '>' then some rest else tagClose rest

/-- `tagSkip l = some t` iff `l` starts with a match of `[^>]+>`
(one or more non-`'>'` characters then `'>'`); `t` is the remainder. -/
def tagSkip : List Char → Option (List Char)
  | [] => none
  | c :: rest => if c = '>' then none else tagClose rest

/-- `re.sub(r"<[^>]+>", "", ·)`, fuelled. -/
def removeTagsF : Nat → List Char → List Char
  | 0, _ => []
  | _ + 1, [] => []
  | fuel + 1, c :: rest =>
    if c = '<' then
      match tagSkip rest with
      | some tail => removeTagsF fuel tail
      | none => c :: removeTagsF fuel rest
    else c :: removeTagsF fuel rest

def removeTags (l : List Char) : List Char := removeTagsF l.length l

/-- The six characters of the `&nbsp;` entity. -/
def nbspChars : List Char := ['&', 'n', 'b', 's', 'p', ';']

/-- `re.sub(r"&nbsp;", " ", ·)`, fuelled. -/
def replaceNbspF : Nat → List Char → List Char
  | 0, _ => []
  | _ + 1, [] => []
  | fuel + 1, c :: rest =>
    if startsWithL nbspChars (c :: rest) then
      ' ' :: replaceNbspF fuel (rest.drop 5)
    else c :: replaceNbspF fuel rest

def replaceNbsp (l : List Char) : List Char := replaceNbspF l.length l

def isAsciiLetter (c : Char) : Bool :=
  ('a' ≤ c && c ≤ 'z') || ('A' ≤ c && c ≤ 'Z')

/-- Scan letters up to a closing `';'`; `none` when a non-letter other than
`';'` (or the end) is reached first. -/
def entityClose : List Char → Option (List Char)
  | [] => none
  | c :: rest =>
    if c = ';' then some rest
    else if isAsciiLetter c then entityClose rest
    else none

/-- `entitySkip l = some t` iff `l` starts with a match of `[a-zA-Z]+;`. -/
def entitySkip : List Char → Option (List Char)
  | [] => none
  | c :: rest => if isAsciiLetter c then entityClose rest else none

/-- `re.sub(r"&[a-zA-Z]+;", "", ·)`, fuelled; applied after the `&nbsp;`
replacement in `_clean_html_text`. -/
def removeEntitiesF : Nat → List Char → List Char
  | 0, _ => []
  | _ + 1, [] => []
  | fuel + 1, c :: rest =>
    if c = '&' then
      match entitySkip rest with
      | some tail => removeEntitiesF fuel tail
      | none => c :: removeEntitiesF fuel rest
    else c :: removeEntitiesF fuel rest

def removeEntities (l : List Char) : List Char := removeEntitiesF l.length l

/-- `re.sub(r"\s+", " ", ·)`, fuelled. -/
def collapseWsF : Nat → List Char → List Char
  | 0, _ => []
  | _ + 1, [] => []
  | fuel + 1, c :: rest =>
    if pyIsSpace c then ' ' :: collapseWsF fuel (rest.dropWhile pyIsSpace)
    else c :: collapseWsF fuel rest

def collapseWs (l : List Char) : List Char := collapseWsF l.length l

/-- Remove a trailing run of whitespace (the right half of `str.strip()`). -/
def stripTrailing : List Char → List Char
  | [] => []
  | c :: rest =>
    let r := stripTrailing rest
    if r.isEmpty then (if pyIsSpace c then [] else [c]) else c :: r

/-- Python `str.strip()` on a character list. -/
def pyStripChars (l : List Char) : List Char :=
  stripTrailing (l.dropWhile pyIsSpace)

/-- `_clean_html_text` on an honest string: strip `<...>` tags, replace
`&nbsp;` by a space, drop other `&name;` entities, collapse whitespace runs
to single spaces and trim.  (The `if not text: return ""` guard of the
Python function is the identity on strings, since every pass maps `""` to
`""`; the guard's behaviour on non-string input lives in `cleanJson`.) -/
def cleanChars (l : List Char) : List Char :=
  pyStripChars (collapseWs (removeEntities (replaceNbsp (removeTags l))))

def cleanHtmlText (s : String) : String := String.mk (cleanChars s.data)

/-! ### JSON values

`Json` mirrors the values returned by `json.loads`: `None`, `bool`, `int`,
`float`, `str`, `list`, `dict`.  Python distinguishes int and float, so the
embedding does too; floats are carried as rationals (their exact numeric
value; float rounding never matters to the extractor, which only truncates
them or formats them for display).  Parsed dicts have unique keys, and
lookup returns the value of the first (hence only) binding. -/

inductive Json where
  | null
  | bool (b : Bool)
  | int (n : Int)
  | float (q : Rat)
  | str (s : String)
  | arr (xs : List Json)
  | obj (fields : List (String × Json))

/-- Python truthiness (`if x:`) of a JSON value. -/
def pyTruthy : Json → Bool
  | .null => false
  | .bool b => b
  | .int n => n != 0
  | .float q => q != 0
  | .str s => s ≠ ""
  | .arr xs => !xs.isEmpty
  | .obj fs => !fs.isEmpty

/-- First binding of `k` in an association list, as an `Option`. -/
def lookupKey (k : String) : List (String × Json) → Option Json
  | [] => none
  | (k', v) :: rest => if k' = k then some v else lookupKey k rest

/-- `d.get(k, default)` on a parsed dict. -/
def lookupD (fs : List (String × Json)) (k : String) (d : Json) : Json :=
  (lookupKey k fs).getD d

/-- Python `x.get(k, default)`: defined for dicts, an uncaught
`AttributeError` for every other value. -/
def dictGet : Json → String → Json → Except Unit Json
  | .obj fs, k, d => .ok (lookupD fs k d)
  | _, _, _ => .error ()

/-- Python iteration `for x in v`: lists yield their elements, strings
their characters (as one-character strings), dicts their keys; other
values raise an uncaught `TypeError`. -/
def pyIterate : Json → Except Unit (List Json)
  | .arr xs => .ok xs
  | .str s => .ok (s.data.map fun c => Json.str (String.singleton c))
  | .obj fs => .ok (fs.map fun p => Json.str p.1)
  | _ => .error ()

/-- Python `needle in container` for a string needle: substring test on
strings, membership on lists (string elements only can compare equal) and
on dict keys; `TypeError` otherwise. -/
def pyContains (container : Json) (needle : String) : Except Unit Bool :=
  match container with
  | .str s => .ok (strContains s needle)
  | .arr xs => .ok (xs.any fun v => match v with | .str s => s = needle | _ => false)
  | .obj fs => .ok (fs.any fun p => p.1 = needle)
  | _ => .error ()

/-- `_clean_html_text` on an arbitrary value: falsy input (`None`, `""`,
`0`, `[]`, `{}`, `False`) returns `""` via the `if not text` guard; a
truthy non-string raises `TypeError` inside `re.sub`. -/
def cleanJson (v : Json) : Except Unit String :=
  if pyTruthy v then
    match v with
    | .str s => .ok (cleanHtmlText s)
    | _ => .error ()
  else .ok ""

/-- Python `repr` of a JSON value.  Exact for `None`, booleans, integers
and the container/string structure; string escaping and float formatting
are simplified (no claim evaluates `repr` on floats or on strings that
would need escapes). -/
def pyRepr : Json → String
  | .null => "None"
  | .bool b => cond b "True" "False"
  | .int n => toString n
  | .float q => if q.den = 1 then toString q.num ++ ".0" else toString q
  | .str s => "'" ++ s ++ "'"
  | .arr xs => "[" ++ String.intercalate ", " (xs.attach.map fun x => pyRepr x.1) ++ "]"
  | .obj fs => "\x7b" ++
      String.intercalate ", "
        (fs.attach.map fun p => "'" ++ p.1.1 ++ "': " ++ pyRepr p.1.2) ++ "\x7d"
decreasing_by
  · simp_wf
    have := List.sizeOf_lt_of_mem x.2
    omega
  · simp_wf
    have := List.sizeOf_lt_of_mem p.2
    have h2 : sizeOf p.1.2 < sizeOf p.1 := by
      cases hp : p.1 with | mk a b => simp [hp]
    omega

/-- Python `str()` of a JSON value: the string itself for strings,
`repr`-style text otherwise. -/
def pyStr : Json → String
  | .str s => s
  | v => pyRepr v

/-- Python `str.capitalize()`: first character upper-cased, the rest
lower-cased (ASCII case model). -/
def pyCapitalize (s : String) : String :=
  match s.data with
  | [] => ""
  | c :: rest => String.mk (c.toUpper :: rest.map Char.toLower)

/-! ### Python `int(...)` -/

/-- Digit run with single underscores allowed between digits, after the
first digit: the tail of Python's integer-literal grammar. -/
def digitsTail (acc : Nat) : List Char → Option Nat
  | [] => some acc
  | c :: rest =>
    if c.isDigit then digitsTail (acc * 10 + (c.toNat - 48)) rest
    else if c = '_' then
      match rest with
      | d :: rest' =>
        if d.isDigit then digitsTail (acc * 10 + (d.toNat - 48)) rest' else none
      | [] => none
    else none

def parseDigits : List Char → Option Nat
  | [] => none
  | c :: rest => if c.isDigit then digitsTail (c.toNat - 48) rest else none

/-- Python `int(s)` for a string (base 10): strip whitespace, optional
sign, decimal digits with single interior underscores (ASCII digit
model). -/
def parseIntStr (s : String) : Option Int :=
  match pyStripChars s.data with
  | '+' :: rest => (parseDigits rest).map Int.ofNat
  | '-' :: rest => (parseDigits rest).map fun n => -(n : Int)
  | t => (parseDigits t).map Int.ofNat

/-- Outcome of Python `int(v)`: a value, a `ValueError` (string with bad
format — caught by the drag-and-drop loop), or a `TypeError` (`None`,
list, dict — uncaught). -/
inductive IntParse where
  | ok (i : Int)
  | valErr
  | typeErr

/-- Python `int(v)`: ints unchanged, floats truncated toward zero, bools
as 0/1, strings parsed (ValueError on failure), TypeError otherwise. -/
def pyToInt : Json → IntParse
  | .int n => .ok n
  | .float q => .ok ((q.num).tdiv (q.den : Int))
  | .bool b => .ok (cond b 1 0)
  | .str s => match parseIntStr s with | some i => .ok i | none => .valErr
  | .null => .typeErr
  | .arr _ => .typeErr
  | .obj _ => .typeErr

/-- Python `lst[i]` with negative-index wraparound: `none` is an
`IndexError`. -/
def pyIndex (l : List String) (i : Int) : Option String :=
  if 0 ≤ i then l.get? i.toNat
  else if i.natAbs ≤ l.length then l.get? (l.length - i.natAbs)
  else none

/-! ### The regex `\*(.*?)\*` (`re.findall`)

At each position, a match needs a `'*'`, then a shortest run of characters
other than `'*'` and `'\n'` (`.` does not cross newlines), then a closing
`'*'`; scanning resumes after the closing star, or one character further
on failure — exactly `re.findall`'s leftmost non-overlapping semantics. -/

def starCapture (c : Char) : Bool := !(c == '*') && !(c == '\n')

def findStarsF : Nat → List Char → List (List Char)
  | 0, _ => []
  | _ + 1, [] => []
  | fuel + 1, c :: rest =>
    if c = '*' then
      let cap := rest.takeWhile starCapture
      match rest.drop cap.length with
      | '*' :: tail => cap :: findStarsF fuel tail
      | _ => findStarsF fuel rest
    else findStarsF fuel rest

/-- `re.findall(r"\*(.*?)\*", s)`. -/
def findStars (s : String) : List String :=
  (findStarsF s.data.length s.data).map String.mk

/-! ### Path helpers used by `save_answers_to_file` / `extract_answers` -/

/-- ASCII model of `str.lower()`. -/
def pyLower (s : String) : String := String.mk (s.data.map Char.toLower)

def endsWithL (l suffix : List Char) : Bool :=
  startsWithL suffix.reverse l.reverse

/-- Python `s.endswith(t)`. -/
def pyEndsWith (s t : String) : Bool := endsWithL s.data t.data

/-- `os.path.basename` on POSIX: everything after the last `'/'`. -/
def pyBasename (s : String) : String :=
  String.mk ((s.data.reverse.takeWhile fun c => !(c == '/')).reverse)

/-- `os.path.splitext(p)[0]` for a path without separators: cut at the
last dot, unless every character before that dot is itself a dot. -/
def pySplitextRoot (s : String) : String :=
  let l := s.data
  let revExt := l.reverse.takeWhile fun c => !(c == '.')
  if revExt.length = l.length then s
  else
    let root := l.take (l.length - revExt.length - 1)
    if root.all fun c => c == '.' then s
    else String.mk root

/-! ### Per-type extraction (`_extract_*_answers`) -/

structure McOption where
  option : String
  text : String
  is_correct : Json

structure McData where
  question : String
  answers : List McOption
  correct_answer : Option String

/-- The capital-letter label `chr(65 + i)` (A, B, C, … for the indices the
extractor can reach). -/
def optionLabel (i : Nat) : String := String.singleton (Char.ofNat (65 + i))

/-- The `for i, answer in enumerate(answers)` loop of
`_extract_multiple_choice_answers`: builds the option list in order and
overwrites `correct_answer` with the current label whenever the entry's
`correct` value is truthy. -/
def mcFold : List Json → Nat → List McOption → Option String →
    Except Unit (List McOption × Option String)
  | [], _, opts, ca => .ok (opts, ca)
  | a :: rest, i, opts, ca =>
    match dictGet a "text" (Json.str "") with
    | .error e => .error e
    | .ok textV =>
    match cleanJson textV with
    | .error e => .error e
    | .ok answer_text =>
    match dictGet a "correct" (Json.bool false) with
    | .error e => .error e
    | .ok is_correct =>
      mcFold rest (i + 1)
        (opts ++ [{ option := optionLabel i, text := answer_text,
                    is_correct := is_correct }])
        (if pyTruthy is_correct then some (optionLabel i) else ca)

def extract_multiple_choice_answers (params : Json) : Except Unit McData :=
  match dictGet params "question" (Json.str "") with
  | .error e => .error e
  | .ok qv =>
  match cleanJson qv with
  | .error e => .error e
  | .ok question =>
  match dictGet params "answers" (Json.arr []) with
  | .error e => .error e
  | .ok av =>
  match pyIterate av with
  | .error e => .error e
  | .ok al =>
  match mcFold al 0 [] none with
  | .error e => .error e
  | .ok (opts, ca) =>
    .ok { question := question, answers := opts, correct_answer := ca }

structure DragDropData where
  drag_items : List String
  drop_areas : List String
  correct_matches : List (String × List Nat)

/-- The element loop of `_extract_drag_drop_answers`: keep the normalized
text of every element whose `type.library` equals `"H5P.AdvancedText 1.1"`. -/
def ddElemLoop : List Json → List String → Except Unit (List String)
  | [], acc => .ok acc
  | el :: rest, acc =>
    match dictGet el "type" (Json.obj []) with
    | .error e => .error e
    | .ok etyp =>
    match dictGet etyp "library" Json.null with
    | .error e => .error e
    | .ok libV =>
      if (match libV with | .str s => s == "H5P.AdvancedText 1.1" | _ => false) then
        match dictGet etyp "params" (Json.obj []) with
        | .error e => .error e
        | .ok ps =>
        match dictGet ps "text" (Json.str "") with
        | .error e => .error e
        | .ok tv =>
        match cleanJson tv with
        | .error e => .error e
        | .ok text => ddElemLoop rest (acc ++ [text])
      else ddElemLoop rest acc

/-- `correct_matches[k].append(v)`, creating `correct_matches[k] = []`
first when the key is new (dicts keep insertion order). -/
def cmAdd (m : List (String × List Nat)) (k : String) (v : Nat) :
    List (String × List Nat) :=
  if m.any fun p => p.1 = k then
    m.map fun p => if p.1 = k then (p.1, p.2 ++ [v]) else p
  else m ++ [(k, [v])]

/-- The `for element_idx in correct_elements` loop: `int(...)` failures
with `ValueError` and out-of-range indices (`IndexError`) are skipped by
the `except (ValueError, IndexError)` handler, a `TypeError` from
`int(...)` escapes it and aborts, and an in-range index (Python semantics,
so negative values count from the end) appends the zone position under the
referenced drag item's text. -/
def ddCeLoop (items : List String) (zoneIdx : Nat) :
    List Json → List (String × List Nat) →
    Except Unit (List (String × List Nat))
  | [], m => .ok m
  | e :: rest, m =>
    match pyToInt e with
    | .typeErr => .error ()
    | .valErr => ddCeLoop items zoneIdx rest m
    | .ok i =>
      if i < (items.length : Int) then
        match pyIndex items i with
        | some t => ddCeLoop items zoneIdx rest (cmAdd m t zoneIdx)
        | none => ddCeLoop items zoneIdx rest m
      else ddCeLoop items zoneIdx rest m

/-- The `for idx, zone in enumerate(drop_zones)` loop: collect non-empty
normalized labels and fold every zone's `correctElements` into the match
map. -/
def ddZoneLoop (items : List String) :
    List Json → Nat → List String → List (String × List Nat) →
    Except Unit (List String × List (String × List Nat))
  | [], _, areas, m => .ok (areas, m)
  | z :: rest, idx, areas, m =>
    match dictGet z "label" (Json.str "") with
    | .error e => .error e
    | .ok lv =>
    match cleanJson lv with
    | .error e => .error e
    | .ok zone_label =>
      let areas' := if zone_label ≠ "" then areas ++ [zone_label] else areas
      match dictGet z "correctElements" (Json.arr []) with
      | .error e => .error e
      | .ok cev =>
      match pyIterate cev with
      | .error e => .error e
      | .ok ceL =>
      match ddCeLoop items idx ceL m with
      | .error e => .error e
      | .ok m' => ddZoneLoop items rest (idx + 1) areas' m'

def extract_drag_drop_answers (params : Json) : Except Unit DragDropData :=
  match dictGet params "question" (Json.obj []) with
  | .error e => .error e
  | .ok question_data =>
  match dictGet question_data "task" (Json.obj []) with
  | .error e => .error e
  | .ok task =>
  match dictGet task "elements" (Json.arr []) with
  | .error e => .error e
  | .ok elementsV =>
  match dictGet task "dropZones" (Json.arr []) with
  | .error e => .error e
  | .ok dropZonesV =>
  match pyIterate elementsV with
  | .error e => .error e
  | .ok elements =>
  match ddElemLoop elements [] with
  | .error e => .error e
  | .ok drag_items =>
  match pyIterate dropZonesV with
  | .error e => .error e
  | .ok drop_zones =>
  match ddZoneLoop drag_items drop_zones 0 [] [] with
  | .error e => .error e
  | .ok (drop_areas, correct_matches) =>
    .ok { drag_items := drag_items, drop_areas := drop_areas,
          correct_matches := correct_matches }

structure TrueFalseData where
  question : String
  correct_answer : String

def extract_true_false_answers (params : Json) : Except Unit TrueFalseData :=
  match dictGet params "question" (Json.str "") with
  | .error e => .error e
  | .ok qv =>
  match cleanJson qv with
  | .error e => .error e
  | .ok question =>
  match dictGet params "correct" (Json.str "") with
  | .error e => .error e
  | .ok correct =>
    .ok { question := question,
          correct_answer :=
            match correct with
            | .bool b => cond b "True" "False"
            | v => pyCapitalize (pyStr v) }

structure BlanksData where
  question : String
  answers : List String

/-- `"\n".join(xs)` needs every element to be a string (`TypeError`
otherwise). -/
def joinStrsAux : List Json → Except Unit (List String)
  | [] => .ok []
  | v :: rest =>
    match v with
    | .str s => (joinStrsAux rest).map (s :: ·)
    | _ => .error ()

def extract_fill_in_blanks_answers (params : Json) : Except Unit BlanksData :=
  match dictGet params "questions" Json.null with
  | .error e => .error e
  | .ok questions =>
  match (if pyTruthy questions then
           match questions with
           | .arr xs =>
             (joinStrsAux xs).map fun ss => Json.str (String.intercalate "\n" ss)
           | q => .ok (Json.str (pyStr q))
         else dictGet params "text" (Json.str "")) with
  | .error e => .error e
  | .ok textV =>
  match cleanJson textV with
  | .error e => .error e
  | .ok text => .ok { question := text, answers := findStars text }

structure DragTextData where
  question : String
  answers : List String
  text_field : String

def extract_drag_text_answers (params : Json) : Except Unit DragTextData :=
  match dictGet params "taskDescription" (Json.str "") with
  | .error e => .error e
  | .ok tdv =>
  match cleanJson tdv with
  | .error e => .error e
  | .ok question =>
  match dictGet params "textField" (Json.str "") with
  | .error e => .error e
  | .ok tfv =>
    match tfv with
    | .str text_field =>
      .ok { question := question,
            answers := (findStars text_field).map cleanHtmlText,
            text_field := text_field }
    | _ => .error ()

/-! ### Dispatch and the main loop (`extract_all_answers`) -/

inductive LibKind where
  | multiChoice | dragQuestion | trueFalse | blanks | image | dragText | other
deriving DecidableEq

/-- The `if/elif` chain of `extract_all_answers`, line 212 onwards: the six
substring tests on `action["library"]`, in source order, first match
wins. -/
def classify (lib : Json) : Except Unit LibKind :=
  match pyContains lib "MultiChoice" with
  | .error e => .error e
  | .ok true => .ok .multiChoice
  | .ok false =>
  match pyContains lib "DragQuestion" with
  | .error e => .error e
  | .ok true => .ok .dragQuestion
  | .ok false =>
  match pyContains lib "TrueFalse" with
  | .error e => .error e
  | .ok true => .ok .trueFalse
  | .ok false =>
  match pyContains lib "Blanks" with
  | .error e => .error e
  | .ok true => .ok .blanks
  | .ok false =>
  match pyContains lib "Image" with
  | .error e => .error e
  | .ok true => .ok .image
  | .ok false =>
  match pyContains lib "DragText" with
  | .error e => .error e
  | .ok true => .ok .dragText
  | .ok false => .ok .other

/-- The type-specific part of one `answer_data` dict. -/
inductive Payload where
  | mc (d : McData)
  | dragDrop (d : DragDropData)
  | trueFalse (d : TrueFalseData)
  | blanks (d : BlanksData)
  | dragText (d : DragTextData)
  | other (raw_params : Json)

/-- The `answer_data["type"]` string of each branch. -/
def typeName : Payload → String
  | .mc _ => "Multiple Choice"
  | .dragDrop _ => "Drag and Drop"
  | .trueFalse _ => "True/False"
  | .blanks _ => "Fill in the Blanks"
  | .dragText _ => "Drag Text"
  | .other _ => "Other"

/-- Truthiness of `answer_data.get("question")`: only the four branches
that store a (cleaned, hence string) question text can make it truthy. -/
def questionTruthy : Payload → Bool
  | .mc d => d.question ≠ ""
  | .trueFalse d => d.question ≠ ""
  | .blanks d => d.question ≠ ""
  | .dragText d => d.question ≠ ""
  | _ => false

def recognizedTypes : List String :=
  ["Drag and Drop", "Fill in the Blanks", "True/False", "Drag Text"]

/-- The emission condition at line 250: a truthy question text, or a type
in the recognized non-text list. -/
def emitRecord (p : Payload) : Bool :=
  questionTruthy p || recognizedTypes.contains (typeName p)

/-- One normalized answer record.  `time_from`/`time_to` are kept as the
raw looked-up values (the record stores them formatted as
`f"{v:.2f}s - {v:.2f}s"`; float formatting itself is display-only and not
modelled, but its `TypeError`/`ValueError` on non-numeric values is, via
`numFormattable`). -/
structure AnswerRecord where
  question_number : Nat
  library_type : Json
  time_from : Json
  time_to : Json
  subcontent_id : Json
  payload : Payload

/-- `format(v, ".2f")` succeeds exactly on ints, floats and bools. -/
def numFormattable : Json → Bool
  | .int _ => true
  | .float _ => true
  | .bool _ => true
  | _ => false

/-- The extraction branch taken for each non-image kind. -/
def payloadFor (kind : LibKind) (params : Json) : Except Unit Payload :=
  match kind with
  | .multiChoice => (extract_multiple_choice_answers params).map .mc
  | .dragQuestion => (extract_drag_drop_answers params).map .dragDrop
  | .trueFalse => (extract_true_false_answers params).map .trueFalse
  | .blanks => (extract_fill_in_blanks_answers params).map .blanks
  | .dragText => (extract_drag_text_answers params).map .dragText
  | .other => .ok (.other params)
  | .image => .error ()

/-- One iteration of the `for interaction in interactions` loop with the
counter at `n`: `.ok none` means no record is emitted (and the counter is
not consumed), `.ok (some r)` emits `r` carrying number `n`. -/
def processInteraction (inter : Json) (n : Nat) :
    Except Unit (Option AnswerRecord) :=
  match dictGet inter "action" (Json.obj []) with
  | .error e => .error e
  | .ok action =>
  match dictGet action "library" (Json.str "") with
  | .error e => .error e
  | .ok library =>
  match dictGet action "params" (Json.obj []) with
  | .error e => .error e
  | .ok params =>
  match dictGet inter "duration" (Json.obj []) with
  | .error e => .error e
  | .ok duration =>
  match dictGet duration "from" (Json.int 0) with
  | .error e => .error e
  | .ok time_from =>
  match dictGet duration "to" (Json.int 0) with
  | .error e => .error e
  | .ok time_to =>
  if numFormattable time_from && numFormattable time_to then
    match dictGet action "subContentId" (Json.str "") with
    | .error e => .error e
    | .ok subcontent =>
    match classify library with
    | .error e => .error e
    | .ok .image => .ok none
    | .ok kind =>
      match payloadFor kind params with
      | .error e => .error e
      | .ok payload =>
        if emitRecord payload then
          .ok (some { question_number := n, library_type := library,
                      time_from := time_from, time_to := time_to,
                      subcontent_id := subcontent, payload := payload })
        else .ok none
  else .error ()

/-- The interaction loop with its `question_number` counter. -/
def extractLoop : List Json → Nat → Except Unit (List AnswerRecord)
  | [], _ => .ok []
  | inter :: rest, n =>
    match processInteraction inter n with
    | .error e => .error e
    | .ok none => extractLoop rest n
    | .ok (some r) =>
      match extractLoop rest (n + 1) with
      | .error e => .error e
      | .ok rs => .ok (r :: rs)

def extract_all_answers (content : Json) : Except Unit (List AnswerRecord) :=
  match dictGet content "interactiveVideo" (Json.obj []) with
  | .error e => .error e
  | .ok iv =>
  match dictGet iv "assets" (Json.obj []) with
  | .error e => .error e
  | .ok assets =>
  match dictGet assets "interactions" (Json.arr []) with
  | .error e => .error e
  | .ok interactionsV =>
  match pyIterate interactionsV with
  | .error e => .error e
  | .ok interactions => extractLoop interactions 1

/-! ### Output file naming -/

/-- The filename logic of `save_answers_to_file` (the directory part,
`os.path.join(os.getcwd(), ·)`, is display-only and dropped): an explicit
`output_path` wins; otherwise a truthy `original_input` ending (after
lower-casing) in `.h5p` gives `<basename-without-extension>_answer.txt`,
and everything else gives `extracted_answers.txt`. -/
def save_output_path (output_path : Option String)
    (original_input : Option String) : String :=
  match output_path with
  | some p => p
  | none =>
    match original_input with
    | some oi =>
      if oi ≠ "" && pyEndsWith (pyLower oi) ".h5p" then
        pySplitextRoot (pyBasename oi) ++ "_answer.txt"
      else "extracted_answers.txt"
    | none => "extracted_answers.txt"

/-- `extract_answers.py` line 27: inputs unpacked as archives are those
whose lower-cased path ends in `.h5p` or `.zip`. -/
def isArchiveInput (file_path : String) : Bool :=
  pyEndsWith (pyLower file_path) ".h5p" || pyEndsWith (pyLower file_path) ".zip"

/-! ### Statement-side checkers and auxiliary predicates -/

/-- No `'>'` character occurs. -/
def noGtB : List Char → Bool
  | [] => true
  | c :: rest => !(c == '>') && noGtB rest

/-! `ltOkB`: every `'<'` is either immediately followed by `'>'` or has no
`'>'` anywhere after it; `ltAfter` states the same for the characters
following one `'<'`.  This is the shape invariant that tag removal
establishes and the later passes preserve. -/

mutual

def ltOkB : List Char → Bool
  | [] => true
  | c :: rest => if c = '<' then ltAfter rest else ltOkB rest

def ltAfter : List Char → Bool
  | [] => true
  | c :: rest => if c = '>' then ltOkB rest else noGtB (c :: rest)

end

/-- Some position starts a match of `<[^>]+>` (a complete tag). -/
def hasTagB : List Char → Bool
  | [] => false
  | c :: rest => (c == '<' && (tagSkip rest).isSome) || hasTagB rest

/-- No two consecutive whitespace characters. -/
def adjOkB : List Char → Bool
  | a :: b :: rest => (!(pyIsSpace a && pyIsSpace b)) && adjOkB (b :: rest)
  | _ => true

/-- Neither the first nor the last character is whitespace. -/
def edgeOkB (l : List Char) : Bool :=
  (match l.head? with | some c => !pyIsSpace c | none => true) &&
  (match l.getLast? with | some c => !pyIsSpace c | none => true)

/-- Truthiness of an answer entry's `correct` value (`False` default). -/
def truthyCorrect (a : Json) : Bool :=
  match a with
  | .obj fs => pyTruthy (lookupD fs "correct" (Json.bool false))
  | _ => false

/-- Statement-side reading of the (amended) C1 sentence: the capital-letter
label of the last entry in the answers list whose `correct` flag is truthy,
or `none` when no entry is flagged correct. -/
def lastCorrectLabel (al : List Json) : Option String :=
  (((al.enum).filter fun p => truthyCorrect p.2).map fun p => optionLabel p.1).getLast?

/-- The value list recorded for `k` in a `correct_matches` map (`[]` when
the key is absent). -/
def cmLookup (m : List (String × List Nat)) (k : String) : List Nat :=
  match m with
  | [] => []
  | (k', v) :: rest => if k' = k then v else cmLookup rest k

/-! ## Lemmas

### Strong induction on list length -/

theorem listLengthRec {P : List Char → Prop}
    (H : ∀ l, (∀ m : List Char, m.length < l.length → P m) → P l) :
    ∀ a, P a := by
  have H2 : ∀ n (x : List Char), x.length = n → P x := by
    intro n
    induction n using Nat.strong_induction_on with
    | _ n ih => intro x hn; exact H x fun m hm => ih m.length (hn ▸ hm) m rfl
  exact fun a => H2 a.length a rfl

/-! ### Scanner helper facts -/

theorem tagClose_length {l t : List Char} (h : tagClose l = some t) :
    t.length < l.length := by
  induction l with
  | nil => simp [tagClose] at h
  | cons c rest ih =>
    simp only [tagClose] at h
    split at h
    · cases h; simp
    · exact Nat.lt_trans (ih h) (by simp)

theorem tagSkip_length {l t : List Char} (h : tagSkip l = some t) :
    t.length < l.length := by
  cases l with
  | nil => simp [tagSkip] at h
  | cons c rest =>
    simp only [tagSkip] at h
    split at h
    · exact absurd h (by simp)
    · exact Nat.lt_trans (tagClose_length h) (by simp)

theorem tagClose_mem {l t : List Char} (h : tagClose l = some t) :
    ∀ c, c ∈ t → c ∈ l := by
  induction l with
  | nil => simp [tagClose] at h
  | cons d rest ih =>
    simp only [tagClose] at h
    split at h
    · cases h; exact fun c hc => List.mem_cons_of_mem _ hc
    · exact fun c hc => List.mem_cons_of_mem _ (ih h c hc)

theorem tagSkip_mem {l t : List Char} (h : tagSkip l = some t) :
    ∀ c, c ∈ t → c ∈ l := by
  cases l with
  | nil => simp [tagSkip] at h
  | cons d rest =>
    simp only [tagSkip] at h
    split at h
    · exact absurd h (by simp)
    · exact fun c hc => List.mem_cons_of_mem _ (tagClose_mem h c hc)

theorem entityClose_length {l t : List Char} (h : entityClose l = some t) :
    t.length < l.length := by
  induction l with
  | nil => simp [entityClose] at h
  | cons c rest ih =>
    simp only [entityClose] at h
    split at h
    · cases h; simp
    · split at h
      · exact Nat.lt_trans (ih h) (by simp)
      · exact absurd h (by simp)

theorem entitySkip_length {l t : List Char} (h : entitySkip l = some t) :
    t.length < l.length := by
  cases l with
  | nil => simp [entitySkip] at h
  | cons c rest =>
    simp only [entitySkip] at h
    split at h
    · exact Nat.lt_trans (entityClose_length h) (by simp)
    · exact absurd h (by simp)

theorem entityClose_mem {l t : List Char} (h : entityClose l = some t) :
    ∀ c, c ∈ t → c ∈ l := by
  induction l with
  | nil => simp [entityClose] at h
  | cons d rest ih =>
    simp only [entityClose] at h
    split at h
    · cases h; exact fun c hc => List.mem_cons_of_mem _ hc
    · split at h
      · exact fun c hc => List.mem_cons_of_mem _ (ih h c hc)
      · exact absurd h (by simp)

theorem entitySkip_mem {l t : List Char} (h : entitySkip l = some t) :
    ∀ c, c ∈ t → c ∈ l := by
  cases l with
  | nil => simp [entitySkip] at h
  | cons d rest =>
    simp only [entitySkip] at h
    split at h
    · exact fun c hc => List.mem_cons_of_mem _ (entityClose_mem h c hc)
    · exact absurd h (by simp)

theorem startsWithL_append {p l : List Char} (h : startsWithL p l = true) :
    l = p ++ l.drop p.length := by
  induction p generalizing l with
  | nil => simp
  | cons a as ih =>
    cases l with
    | nil => simp [startsWithL] at h
    | cons b bs =>
      simp only [startsWithL, Bool.and_eq_true, beq_iff_eq] at h
      obtain ⟨rfl, h2⟩ := h
      simpa using ih h2

/-! ### `noGtB` and `ltOkB` basics -/

theorem noGt_iff {l : List Char} : noGtB l = true ↔ ∀ c ∈ l, c ≠ '>' := by
  induction l with
  | nil => simp [noGtB]
  | cons c rest ih => simp [noGtB, ih]

theorem tagClose_of_noGt {l : List Char} (h : noGtB l = true) :
    tagClose l = none := by
  induction l with
  | nil => rfl
  | cons d rest ih =>
    simp only [noGtB, Bool.and_eq_true, Bool.not_eq_true', beq_eq_false_iff_ne] at h
    simp [tagClose, h.1, ih h.2]

theorem ltOkB_cons_ne {c : Char} (h : c ≠ '<') (rest : List Char) :
    ltOkB (c :: rest) = ltOkB rest := by
  simp [ltOkB, h]

theorem ltOkB_cons_lt (rest : List Char) :
    ltOkB ('<' :: rest) = ltAfter rest := by
  simp [ltOkB]

theorem ltAfter_cons_gt (rest : List Char) :
    ltAfter ('>' :: rest) = ltOkB rest := by
  simp [ltAfter]

theorem ltAfter_cons_ne {c : Char} (h : c ≠ '>') (rest : List Char) :
    ltAfter (c :: rest) = noGtB (c :: rest) := by
  simp [ltAfter, h]

theorem ltOkB_lt_gt (r : List Char) : ltOkB ('<' :: '>' :: r) = ltOkB r := by
  rw [ltOkB_cons_lt, ltAfter_cons_gt]

theorem ltAfter_of_noGt {rest : List Char} (h : noGtB rest = true) :
    ltAfter rest = true := by
  cases rest with
  | nil => rfl
  | cons d r =>
    have hd : d ≠ '>' := by
      simp only [noGtB, Bool.and_eq_true, Bool.not_eq_true', beq_eq_false_iff_ne] at h
      exact h.1
    rw [ltAfter_cons_ne hd]
    exact h

theorem ltOkB_lt_of_noGt {rest : List Char} (h : noGtB rest = true) :
    ltOkB ('<' :: rest) = true := by
  rw [ltOkB_cons_lt]; exact ltAfter_of_noGt h

theorem noGt_ltOk {l : List Char} (h : noGtB l = true) : ltOkB l = true := by
  induction l with
  | nil => rfl
  | cons c rest ih =>
    have h' := h
    simp only [noGtB, Bool.and_eq_true, Bool.not_eq_true', beq_eq_false_iff_ne] at h'
    by_cases hc : c = '<'
    · subst hc; exact ltOkB_lt_of_noGt h'.2
    · rw [ltOkB_cons_ne hc]; exact ih h'.2

theorem noGt_append_right {a b : List Char} (h : noGtB (a ++ b) = true) :
    noGtB b = true := by
  rw [noGt_iff] at h ⊢
  exact fun c hc => h c (List.mem_append_right _ hc)

theorem noGt_append_left {a b : List Char} (h : noGtB (a ++ b) = true) :
    noGtB a = true := by
  rw [noGt_iff] at h ⊢
  exact fun c hc => h c (List.mem_append_left _ hc)

theorem ltOk_append_right : ∀ a b : List Char,
    ltOkB (a ++ b) = true → ltOkB b = true := by
  have key : ∀ x : List Char, ∀ a b : List Char, x = a ++ b →
      ltOkB x = true → ltOkB b = true := by
    intro x
    induction x using listLengthRec with
    | _ x ih =>
      intro a b hx h
      cases a with
      | nil => simpa [hx] using h
      | cons c a' =>
        subst hx
        by_cases hc : c = '<'
        · subst hc
          rw [List.cons_append, ltOkB_cons_lt] at h
          cases a' with
          | nil =>
            simp only [List.nil_append] at h
            cases b with
            | nil => rfl
            | cons d b' =>
              by_cases hd : d = '>'
              · subst hd
                rw [ltAfter_cons_gt] at h
                rw [ltOkB_cons_ne (by decide)]
                exact h
              · rw [ltAfter_cons_ne hd] at h
                exact noGt_ltOk h
          | cons d a'' =>
            by_cases hd : d = '>'
            · subst hd
              rw [List.cons_append, ltAfter_cons_gt] at h
              exact ih (a'' ++ b) (by simp; omega) a'' b rfl h
            · rw [List.cons_append, ltAfter_cons_ne hd] at h
              exact noGt_ltOk (noGt_append_right (a := d :: a'') h)
        · rw [List.cons_append, ltOkB_cons_ne hc] at h
          exact ih (a' ++ b) (by simp) a' b rfl h
  exact fun a b => key (a ++ b) a b rfl

theorem ltOk_append_left : ∀ a b : List Char, noGtB b = true →
    ltOkB (a ++ b) = true → ltOkB a = true := by
  have key : ∀ x : List Char, ∀ a b : List Char, x = a ++ b → noGtB b = true →
      ltOkB x = true → ltOkB a = true := by
    intro x
    induction x using listLengthRec with
    | _ x ih =>
      intro a b hx hb h
      cases a with
      | nil => rfl
      | cons c a' =>
        subst hx
        by_cases hc : c = '<'
        · subst hc
          rw [List.cons_append, ltOkB_cons_lt] at h
          rw [ltOkB_cons_lt]
          cases a' with
          | nil => rfl
          | cons d a'' =>
            by_cases hd : d = '>'
            · subst hd
              rw [List.cons_append, ltAfter_cons_gt] at h
              rw [ltAfter_cons_gt]
              exact ih (a'' ++ b) (by simp; omega) a'' b rfl hb h
            · rw [List.cons_append, ltAfter_cons_ne hd] at h
              rw [ltAfter_cons_ne hd]
              exact noGt_append_left (b := b) (by simpa using h)
        · rw [List.cons_append, ltOkB_cons_ne hc] at h
          rw [ltOkB_cons_ne hc]
          exact ih (a' ++ b) (by simp) a' b rfl hb h
  exact fun a b => key (a ++ b) a b rfl

/-! ### Characters produced by each cleaning pass -/

theorem removeTagsF_mem : ∀ fuel l c, c ∈ removeTagsF fuel l → c ∈ l := by
  intro fuel
  induction fuel with
  | zero => intro l c h; simp [removeTagsF] at h
  | succ f ih =>
    intro l c h
    cases l with
    | nil => simp [removeTagsF] at h
    | cons d rest =>
      simp only [removeTagsF] at h
      split at h
      · split at h
        · next tail heq =>
          exact List.mem_cons_of_mem _ (tagSkip_mem heq c (ih tail c h))
        · rcases List.mem_cons.mp h with h1 | h1
          · exact h1 ▸ List.mem_cons_self _ _
          · exact List.mem_cons_of_mem _ (ih rest c h1)
      · rcases List.mem_cons.mp h with h1 | h1
        · exact h1 ▸ List.mem_cons_self _ _
        · exact List.mem_cons_of_mem _ (ih rest c h1)

theorem replaceNbspF_mem : ∀ fuel l c, c ∈ replaceNbspF fuel l →
    c ∈ l ∨ c = ' ' := by
  intro fuel
  induction fuel with
  | zero => intro l c h; simp [replaceNbspF] at h
  | succ f ih =>
    intro l c h
    cases l with
    | nil => simp [replaceNbspF] at h
    | cons d rest =>
      simp only [replaceNbspF] at h
      split at h
      · rcases List.mem_cons.mp h with h1 | h1
        · right; exact h1
        · rcases ih _ c h1 with h2 | h2
          · exact Or.inl (List.mem_cons_of_mem _ ((List.drop_sublist _ _).mem h2))
          · exact Or.inr h2
      · rcases List.mem_cons.mp h with h1 | h1
        · exact Or.inl (h1 ▸ List.mem_cons_self _ _)
        · rcases ih rest c h1 with h2 | h2
          · exact Or.inl (List.mem_cons_of_mem _ h2)
          · exact Or.inr h2

theorem removeEntitiesF_mem : ∀ fuel l c, c ∈ removeEntitiesF fuel l → c ∈ l := by
  intro fuel
  induction fuel with
  | zero => intro l c h; simp [removeEntitiesF] at h
  | succ f ih =>
    intro l c h
    cases l with
    | nil => simp [removeEntitiesF] at h
    | cons d rest =>
      simp only [removeEntitiesF] at h
      split at h
      · split at h
        · next tail heq =>
          exact List.mem_cons_of_mem _ (entitySkip_mem heq c (ih tail c h))
        · rcases List.mem_cons.mp h with h1 | h1
          · exact h1 ▸ List.mem_cons_self _ _
          · exact List.mem_cons_of_mem _ (ih rest c h1)
      · rcases List.mem_cons.mp h with h1 | h1
        · exact h1 ▸ List.mem_cons_self _ _
        · exact List.mem_cons_of_mem _ (ih rest c h1)

theorem collapseWsF_mem : ∀ fuel l c, c ∈ collapseWsF fuel l →
    c ∈ l ∨ c = ' ' := by
  intro fuel
  induction fuel with
  | zero => intro l c h; simp [collapseWsF] at h
  | succ f ih =>
    intro l c h
    cases l with
    | nil => simp [collapseWsF] at h
    | cons d rest =>
      simp only [collapseWsF] at h
      split at h
      · rcases List.mem_cons.mp h with h1 | h1
        · right; exact h1
        · rcases ih _ c h1 with h2 | h2
          · exact Or.inl
              (List.mem_cons_of_mem _ ((List.dropWhile_sublist _).mem h2))
          · exact Or.inr h2
      · rcases List.mem_cons.mp h with h1 | h1
        · exact Or.inl (h1 ▸ List.mem_cons_self _ _)
        · rcases ih rest c h1 with h2 | h2
          · exact Or.inl (List.mem_cons_of_mem _ h2)
          · exact Or.inr h2

theorem noGt_removeTagsF {fuel : Nat} {l : List Char} (h : noGtB l = true) :
    noGtB (removeTagsF fuel l) = true := by
  rw [noGt_iff] at h ⊢
  exact fun c hc => h c (removeTagsF_mem fuel l c hc)

theorem noGt_replaceNbspF {fuel : Nat} {l : List Char} (h : noGtB l = true) :
    noGtB (replaceNbspF fuel l) = true := by
  rw [noGt_iff] at h ⊢
  intro c hc
  rcases replaceNbspF_mem fuel l c hc with h2 | h2
  · exact h c h2
  · subst h2; decide

theorem noGt_removeEntitiesF {fuel : Nat} {l : List Char} (h : noGtB l = true) :
    noGtB (removeEntitiesF fuel l) = true := by
  rw [noGt_iff] at h ⊢
  exact fun c hc => h c (removeEntitiesF_mem fuel l c hc)

theorem noGt_collapseWsF {fuel : Nat} {l : List Char} (h : noGtB l = true) :
    noGtB (collapseWsF fuel l) = true := by
  rw [noGt_iff] at h ⊢
  intro c hc
  rcases collapseWsF_mem fuel l c hc with h2 | h2
  · exact h c h2
  · subst h2; decide

/-! ### Tag removal establishes the `ltOkB` invariant -/

theorem tagClose_none_noGt : ∀ {r : List Char}, tagClose r = none →
    noGtB r = true := by
  intro r
  induction r with
  | nil => intro _; rfl
  | cons e r' ih =>
    intro h
    simp only [tagClose] at h
    split at h
    · exact absurd h (by simp)
    · next he =>
      simp only [noGtB, Bool.and_eq_true, Bool.not_eq_true', beq_eq_false_iff_ne]
      exact ⟨he, ih h⟩

theorem tagSkip_none_cases {rest : List Char} (h : tagSkip rest = none) :
    rest = [] ∨ (∃ r, rest = '>' :: r) ∨ noGtB rest = true := by
  cases rest with
  | nil => exact Or.inl rfl
  | cons d r =>
    by_cases hd : d = '>'
    · exact Or.inr (Or.inl ⟨r, by rw [hd]⟩)
    · refine Or.inr (Or.inr ?_)
      simp only [tagSkip, if_neg hd] at h
      simp only [noGtB, Bool.and_eq_true, Bool.not_eq_true', beq_eq_false_iff_ne]
      exact ⟨hd, tagClose_none_noGt h⟩

theorem removeTagsF_ltOk : ∀ l : List Char, ∀ fuel, l.length ≤ fuel →
    ltOkB (removeTagsF fuel l) = true := by
  intro l
  induction l using listLengthRec with
  | _ l ih =>
    intro fuel hl
    cases l with
    | nil => cases fuel <;> rfl
    | cons d rest =>
      obtain ⟨f, rfl⟩ : ∃ f, fuel = f + 1 := by
        cases fuel
        · simp at hl
        · exact ⟨_, rfl⟩
      have hrest : rest.length ≤ f := by simp at hl; omega
      simp only [removeTagsF]
      split
      · next hd =>
        subst hd
        split
        · next tail heq =>
          exact ih tail (Nat.lt_of_lt_of_le (tagSkip_length heq) (by simp))
            f (Nat.le_of_lt (Nat.lt_of_lt_of_le (tagSkip_length heq) hrest))
        · next heq =>
          rcases tagSkip_none_cases heq with h1 | ⟨r, rfl⟩ | h1
          · subst h1
            have hz : removeTagsF f ([] : List Char) = [] := by cases f <;> rfl
            rw [hz]; decide
          · obtain ⟨f', rfl⟩ : ∃ f', f = f' + 1 := by
              cases f
              · simp at hrest
              · exact ⟨_, rfl⟩
            have : removeTagsF (f' + 1) ('>' :: r) =
                '>' :: removeTagsF f' r := by
              simp [removeTagsF]
            rw [this, ltOkB_lt_gt]
            exact ih r (by simp; omega) f' (by simp at hrest; omega)
          · exact ltOkB_lt_of_noGt (noGt_removeTagsF h1)
      · next hd =>
        rw [ltOkB_cons_ne hd]
        exact ih rest (by simp) f hrest

/-! ### The later passes preserve the `ltOkB` invariant -/

theorem entityClose_decomp : ∀ {l t : List Char}, entityClose l = some t →
    ∃ p, l = p ++ t := by
  intro l
  induction l with
  | nil => intro t h; simp [entityClose] at h
  | cons c rest ih =>
    intro t h
    simp only [entityClose] at h
    split at h
    · cases h; exact ⟨[c], rfl⟩
    · split at h
      · obtain ⟨p, hp⟩ := ih h
        exact ⟨c :: p, by simp [hp]⟩
      · exact absurd h (by simp)

theorem entitySkip_decomp {l t : List Char} (h : entitySkip l = some t) :
    ∃ p, l = p ++ t := by
  cases l with
  | nil => simp [entitySkip] at h
  | cons c rest =>
    simp only [entitySkip] at h
    split at h
    · obtain ⟨p, hp⟩ := entityClose_decomp h
      exact ⟨c :: p, by simp [hp]⟩
    · exact absurd h (by simp)

theorem replaceNbspF_ltOk : ∀ l : List Char, ∀ fuel, l.length ≤ fuel →
    ltOkB l = true → ltOkB (replaceNbspF fuel l) = true := by
  intro l
  induction l using listLengthRec with
  | _ l ih =>
    intro fuel hl h
    cases l with
    | nil => cases fuel <;> rfl
    | cons c rest =>
      obtain ⟨f, rfl⟩ : ∃ f, fuel = f + 1 := by
        cases fuel
        · simp at hl
        · exact ⟨_, rfl⟩
      have hrest : rest.length ≤ f := by simp at hl; omega
      simp only [replaceNbspF]
      split
      · next hpre =>
        have hdec := startsWithL_append hpre
        have hdrop : (c :: rest).drop nbspChars.length = rest.drop 5 := by
          simp [nbspChars]
        rw [hdrop] at hdec
        have htail : ltOkB (rest.drop 5) = true :=
          ltOk_append_right _ _ (hdec ▸ h)
        rw [ltOkB_cons_ne (by decide)]
        exact ih (rest.drop 5)
          (by simp; omega) f (by simp; omega) htail
      · next hpre =>
        by_cases hc : c = '<'
        · subst hc
          rw [ltOkB_cons_lt] at h
          cases rest with
          | nil =>
            have hz : replaceNbspF f ([] : List Char) = [] := by cases f <;> rfl
            rw [hz]; decide
          | cons d r =>
            by_cases hd : d = '>'
            · subst hd
              rw [ltAfter_cons_gt] at h
              obtain ⟨f', rfl⟩ : ∃ f', f = f' + 1 := by
                cases f
                · simp at hrest
                · exact ⟨_, rfl⟩
              have hstep : replaceNbspF (f' + 1) ('>' :: r) =
                  '>' :: replaceNbspF f' r := by
                simp [replaceNbspF, nbspChars, startsWithL]
              rw [hstep, ltOkB_lt_gt]
              exact ih r (by simp; omega) f' (by simp at hrest; omega) h
            · rw [ltAfter_cons_ne hd] at h
              exact ltOkB_lt_of_noGt (noGt_replaceNbspF h)
        · rw [ltOkB_cons_ne hc] at h
          rw [ltOkB_cons_ne hc]
          exact ih rest (by simp) f hrest h

theorem removeEntitiesF_ltOk : ∀ l : List Char, ∀ fuel, l.length ≤ fuel →
    ltOkB l = true → ltOkB (removeEntitiesF fuel l) = true := by
  intro l
  induction l using listLengthRec with
  | _ l ih =>
    intro fuel hl h
    cases l with
    | nil => cases fuel <;> rfl
    | cons c rest =>
      obtain ⟨f, rfl⟩ : ∃ f, fuel = f + 1 := by
        cases fuel
        · simp at hl
        · exact ⟨_, rfl⟩
      have hrest : rest.length ≤ f := by simp at hl; omega
      simp only [removeEntitiesF]
      split
      · next hc =>
        subst hc
        split
        · next tail heq =>
          obtain ⟨p, hp⟩ := entitySkip_decomp heq
          have hlt : ltOkB tail = true := by
            rw [ltOkB_cons_ne (by decide), hp] at h
            exact ltOk_append_right _ _ h
          have hlen : tail.length < rest.length := entitySkip_length heq
          exact ih tail (by simp; omega) f (by omega) hlt
        · next heq =>
          rw [ltOkB_cons_ne (by decide)] at h
          rw [ltOkB_cons_ne (by decide)]
          exact ih rest (by simp) f hrest h
      · next hc =>
        by_cases hlt : c = '<'
        · subst hlt
          rw [ltOkB_cons_lt] at h
          cases rest with
          | nil =>
            have hz : removeEntitiesF f ([] : List Char) = [] := by
              cases f <;> rfl
            rw [hz]; decide
          | cons d r =>
            by_cases hd : d = '>'
            · subst hd
              rw [ltAfter_cons_gt] at h
              obtain ⟨f', rfl⟩ : ∃ f', f = f' + 1 := by
                cases f
                · simp at hrest
                · exact ⟨_, rfl⟩
              have hstep : removeEntitiesF (f' + 1) ('>' :: r) =
                  '>' :: removeEntitiesF f' r := by
                simp [removeEntitiesF]
              rw [hstep, ltOkB_lt_gt]
              exact ih r (by simp; omega) f' (by simp at hrest; omega) h
            · rw [ltAfter_cons_ne hd] at h
              exact ltOkB_lt_of_noGt (noGt_removeEntitiesF h)
        · rw [ltOkB_cons_ne hlt] at h
          rw [ltOkB_cons_ne hlt]
          exact ih rest (by simp) f hrest h

theorem collapseWsF_ltOk : ∀ l : List Char, ∀ fuel, l.length ≤ fuel →
    ltOkB l = true → ltOkB (collapseWsF fuel l) = true := by
  intro l
  induction l using listLengthRec with
  | _ l ih =>
    intro fuel hl h
    cases l with
    | nil => cases fuel <;> rfl
    | cons c rest =>
      obtain ⟨f, rfl⟩ : ∃ f, fuel = f + 1 := by
        cases fuel
        · simp at hl
        · exact ⟨_, rfl⟩
      have hrest : rest.length ≤ f := by simp at hl; omega
      simp only [collapseWsF]
      split
      · next hws =>
        have hc : c ≠ '<' := by
          intro hceq; subst hceq; exact absurd hws (by decide)
        rw [ltOkB_cons_ne hc] at h
        have hdw : ltOkB (rest.dropWhile pyIsSpace) = true := by
          have := List.takeWhile_append_dropWhile (p := pyIsSpace) (l := rest)
          exact ltOk_append_right _ _ (by rw [this]; exact h)
        rw [ltOkB_cons_ne (by decide)]
        refine ih (rest.dropWhile pyIsSpace) ?_ f ?_ hdw
        · have := (List.dropWhile_sublist (l := rest) pyIsSpace).length_le
          simp; omega
        · have := (List.dropWhile_sublist (l := rest) pyIsSpace).length_le
          omega
      · next hws =>
        by_cases hc : c = '<'
        · subst hc
          rw [ltOkB_cons_lt] at h
          cases rest with
          | nil =>
            have hz : collapseWsF f ([] : List Char) = [] := by cases f <;> rfl
            rw [hz]; decide
          | cons d r =>
            by_cases hd : d = '>'
            · subst hd
              rw [ltAfter_cons_gt] at h
              obtain ⟨f', rfl⟩ : ∃ f', f = f' + 1 := by
                cases f
                · simp at hrest
                · exact ⟨_, rfl⟩
              have hstep : collapseWsF (f' + 1) ('>' :: r) =
                  '>' :: collapseWsF f' r := by
                have hgt : pyIsSpace '>' = false := by decide
                simp [collapseWsF, hgt]
              rw [hstep, ltOkB_lt_gt]
              exact ih r (by simp; omega) f' (by simp at hrest; omega) h
            · rw [ltAfter_cons_ne hd] at h
              exact ltOkB_lt_of_noGt (noGt_collapseWsF h)
        · rw [ltOkB_cons_ne hc] at h
          rw [ltOkB_cons_ne hc]
          exact ih rest (by simp) f hrest h

/-! ### Stripping, adjacency, and tag detection -/

theorem stripTrailing_decomp : ∀ l : List Char,
    ∃ b, l = stripTrailing l ++ b ∧ ∀ c ∈ b, pyIsSpace c = true := by
  intro l
  induction l with
  | nil => exact ⟨[], rfl, by simp⟩
  | cons c rest ih =>
    obtain ⟨b, hb, hws⟩ := ih
    simp only [stripTrailing]
    by_cases hr : (stripTrailing rest).isEmpty
    · have hrest : rest = b := by
        rw [List.isEmpty_iff] at hr
        simpa [hr] using hb
      by_cases hc : pyIsSpace c
      · refine ⟨c :: rest, ?_, ?_⟩
        · simp [hr, hc]
        · intro x hx
          rcases List.mem_cons.mp hx with h1 | h1
          · exact h1 ▸ hc
          · exact hws x (hrest ▸ h1)
      · refine ⟨rest, ?_, fun x hx => hws x (hrest ▸ hx)⟩
        simp [hr, hc]
      -- second goal of the isEmpty split handled below
    · refine ⟨b, ?_, hws⟩
      simp only [if_neg hr]
      rw [List.cons_append, ← hb]

theorem stripTrailing_head : ∀ l : List Char,
    stripTrailing l = [] ∨ (stripTrailing l).head? = l.head? := by
  intro l
  cases l with
  | nil => exact Or.inl rfl
  | cons c rest =>
    simp only [stripTrailing]
    by_cases hr : (stripTrailing rest).isEmpty
    · by_cases hc : pyIsSpace c
      · exact Or.inl (by simp [hr, hc])
      · exact Or.inr (by simp [hr, hc])
    · exact Or.inr (by simp [hr])

theorem stripTrailing_last : ∀ l : List Char, ∀ c,
    (stripTrailing l).getLast? = some c → pyIsSpace c = false := by
  intro l
  induction l with
  | nil => intro c h; simp [stripTrailing] at h
  | cons d rest ih =>
    intro c h
    simp only [stripTrailing] at h
    by_cases hr : (stripTrailing rest).isEmpty
    · by_cases hd : pyIsSpace d
      · simp [hr, hd] at h
      · simp only [hr, if_true, hd, if_false] at h
        simp at h
        cases h; simpa using hd
    · rw [if_neg hr] at h
      obtain ⟨e, r, hre⟩ : ∃ e r, stripTrailing rest = e :: r := by
        cases hsr : stripTrailing rest with
        | nil => rw [hsr] at hr; simp at hr
        | cons e r => exact ⟨e, r, rfl⟩
      rw [hre] at h
      rw [List.getLast?_cons_cons] at h
      exact ih c (hre ▸ h)

theorem adjOk_cons_tail {c : Char} {l : List Char}
    (h : adjOkB (c :: l) = true) : adjOkB l = true := by
  cases l with
  | nil => rfl
  | cons d r =>
    simp only [adjOkB, Bool.and_eq_true] at h
    exact h.2

theorem adjOk_append_right : ∀ a b : List Char,
    adjOkB (a ++ b) = true → adjOkB b = true := by
  intro a
  induction a with
  | nil => exact fun b h => h
  | cons c a' ih => exact fun b h => ih b (adjOk_cons_tail h)

theorem adjOk_cons_not_ws {c : Char} (hc : pyIsSpace c = false)
    (l : List Char) : adjOkB (c :: l) = adjOkB l := by
  cases l with
  | nil => rfl
  | cons d r => simp [adjOkB, hc]

theorem adjOk_cons_head_not_ws {c z : Char} {l : List Char}
    (hz : l.head? = some z) (hzw : pyIsSpace z = false) :
    adjOkB (c :: l) = adjOkB l := by
  cases l with
  | nil => simp at hz
  | cons d r =>
    have : d = z := by simpa using hz
    subst this
    simp [adjOkB, hzw]

theorem dropWhile_head_not {p : Char → Bool} : ∀ l : List Char, ∀ c,
    (l.dropWhile p).head? = some c → p c = false := by
  intro l
  induction l with
  | nil => intro c h; simp at h
  | cons d rest ih =>
    intro c h
    by_cases hd : p d
    · rw [List.dropWhile_cons_of_pos hd] at h
      exact ih c h
    · rw [List.dropWhile_cons_of_neg hd] at h
      simp at h
      cases h; simpa using hd

theorem collapseWsF_adjOk : ∀ l : List Char, ∀ fuel, l.length ≤ fuel →
    adjOkB (collapseWsF fuel l) = true := by
  intro l
  induction l using listLengthRec with
  | _ l ih =>
    intro fuel hl
    cases l with
    | nil => cases fuel <;> rfl
    | cons c rest =>
      obtain ⟨f, rfl⟩ : ∃ f, fuel = f + 1 := by
        cases fuel
        · simp at hl
        · exact ⟨_, rfl⟩
      have hrest : rest.length ≤ f := by simp at hl; omega
      simp only [collapseWsF]
      split
      · next hws =>
        cases hY : rest.dropWhile pyIsSpace with
        | nil =>
          have hz : collapseWsF f ([] : List Char) = [] := by cases f <;> rfl
          rw [hz]; rfl
        | cons d xs =>
          have hdws : pyIsSpace d = false :=
            dropWhile_head_not rest d (by rw [hY]; rfl)
          have hlen : (d :: xs).length ≤ rest.length := by
            rw [← hY]
            exact (List.dropWhile_sublist (l := rest) pyIsSpace).length_le
          obtain ⟨f', rfl⟩ : ∃ f', f = f' + 1 := by
            cases f
            · simp at hlen; omega
            · exact ⟨_, rfl⟩
          have hstep : collapseWsF (f' + 1) (d :: xs) =
              d :: collapseWsF f' xs := by
            simp [collapseWsF, hdws]
          rw [hstep]
          have htail : adjOkB (d :: collapseWsF f' xs) = true := by
            rw [← hstep]
            exact ih (d :: xs)
              (Nat.lt_of_le_of_lt hlen (by simp)) (f' + 1)
              (Nat.le_trans hlen hrest)
          rw [adjOk_cons_head_not_ws (z := d) (by rfl) hdws]
          exact htail
      · next hws =>
        have hcws : pyIsSpace c = false := by
          revert hws; cases pyIsSpace c <;> simp
        rw [adjOk_cons_not_ws hcws]
        exact ih rest (by simp) f hrest

theorem hasTag_of_noGt : ∀ {l : List Char}, noGtB l = true →
    hasTagB l = false := by
  intro l
  induction l with
  | nil => intro _; rfl
  | cons c rest ih =>
    intro h
    simp only [noGtB, Bool.and_eq_true, Bool.not_eq_true',
      beq_eq_false_iff_ne] at h
    have hskip : tagSkip rest = none := by
      cases rest with
      | nil => rfl
      | cons d r =>
        have hd : d ≠ '>' := by
          have := h.2
          simp only [noGtB, Bool.and_eq_true, Bool.not_eq_true',
            beq_eq_false_iff_ne] at this
          exact this.1
        have hr : noGtB r = true := by
          have := h.2
          simp only [noGtB, Bool.and_eq_true, Bool.not_eq_true',
            beq_eq_false_iff_ne] at this
          exact this.2
        simp only [tagSkip, if_neg hd]
        exact tagClose_of_noGt hr
    simp only [hasTagB, hskip, Option.isSome_none, Bool.and_false,
      Bool.false_or]
    exact ih h.2

theorem ltOk_hasTag : ∀ l : List Char, ltOkB l = true → hasTagB l = false := by
  intro l
  induction l using listLengthRec with
  | _ l ih =>
    intro h
    cases l with
    | nil => rfl
    | cons c rest =>
      by_cases hc : c = '<'
      · subst hc
        rw [ltOkB_cons_lt] at h
        cases rest with
        | nil => rfl
        | cons d r =>
          by_cases hd : d = '>'
          · subst hd
            rw [ltAfter_cons_gt] at h
            have hskip : tagSkip ('>' :: r) = none := rfl
            simp only [hasTagB, hskip, Option.isSome_none, Bool.and_false,
              Bool.false_or]
            have : hasTagB r = false := ih r (by simp; omega) h
            simp [hasTagB, this]
          · rw [ltAfter_cons_ne hd] at h
            have hskip : tagSkip (d :: r) = none := by
              simp only [tagSkip, if_neg hd]
              apply tagClose_of_noGt
              simp only [noGtB, Bool.and_eq_true] at h
              exact h.2
            simp only [hasTagB, hskip, Option.isSome_none, Bool.and_false,
              Bool.false_or]
            exact hasTag_of_noGt h
      · rw [ltOkB_cons_ne hc] at h
        have hcb : (c == '<') = false := by
          simp [hc]
        simp only [hasTagB, hcb, Bool.false_and, Bool.false_or]
        exact ih rest (by simp) h

theorem stripTrailing_adjOk : ∀ l : List Char, adjOkB l = true →
    adjOkB (stripTrailing l) = true := by
  intro l
  induction l with
  | nil => exact fun h => h
  | cons c rest ih =>
    intro h
    simp only [stripTrailing]
    by_cases hr : (stripTrailing rest).isEmpty
    · by_cases hc : pyIsSpace c
      · simp [hr, hc, adjOkB]
      · simp [hr, hc, adjOkB]
    · rw [if_neg hr]
      have hadjr : adjOkB (stripTrailing rest) = true := ih (adjOk_cons_tail h)
      cases hsr : stripTrailing rest with
      | nil => rw [hsr] at hr; simp at hr
      | cons e r' =>
        rcases stripTrailing_head rest with h0 | h0
        · rw [h0] at hsr; simp at hsr
        · rw [hsr] at h0
          cases rest with
          | nil => simp [stripTrailing] at hsr
          | cons d rest' =>
            have he : e = d := by simpa using h0
            subst he
            simp only [adjOkB, Bool.and_eq_true] at h ⊢
            refine ⟨h.1, ?_⟩
            rw [← hsr]
            exact hadjr

/-! ### The cleaned text satisfies all the shape properties -/

theorem cleanChars_ltOk (l : List Char) : ltOkB (cleanChars l) = true := by
  have h1 : ltOkB (removeTags l) = true := removeTagsF_ltOk l l.length le_rfl
  have h2 : ltOkB (replaceNbsp (removeTags l)) = true :=
    replaceNbspF_ltOk _ _ le_rfl h1
  have h3 : ltOkB (removeEntities (replaceNbsp (removeTags l))) = true :=
    removeEntitiesF_ltOk _ _ le_rfl h2
  have h4 : ltOkB (collapseWs (removeEntities (replaceNbsp (removeTags l)))) =
      true := collapseWsF_ltOk _ _ le_rfl h3
  have h5 : ltOkB ((collapseWs (removeEntities (replaceNbsp
      (removeTags l)))).dropWhile pyIsSpace) = true := by
    have hsplit := List.takeWhile_append_dropWhile (p := pyIsSpace)
      (l := collapseWs (removeEntities (replaceNbsp (removeTags l))))
    exact ltOk_append_right _ _ (by rw [hsplit]; exact h4)
  obtain ⟨b, hb, hbws⟩ := stripTrailing_decomp
    ((collapseWs (removeEntities (replaceNbsp
      (removeTags l)))).dropWhile pyIsSpace)
  have hnb : noGtB b = true := by
    rw [noGt_iff]
    intro c hc hgt
    have := hbws c hc
    subst hgt
    exact absurd this (by decide)
  exact ltOk_append_left _ b hnb (hb ▸ h5)

theorem cleanChars_noTag (l : List Char) : hasTagB (cleanChars l) = false :=
  ltOk_hasTag _ (cleanChars_ltOk l)

theorem cleanChars_adjOk (l : List Char) : adjOkB (cleanChars l) = true := by
  have h4 : adjOkB (collapseWs (removeEntities (replaceNbsp
      (removeTags l)))) = true := collapseWsF_adjOk _ _ le_rfl
  have h5 : adjOkB ((collapseWs (removeEntities (replaceNbsp
      (removeTags l)))).dropWhile pyIsSpace) = true := by
    have hsplit := List.takeWhile_append_dropWhile (p := pyIsSpace)
      (l := collapseWs (removeEntities (replaceNbsp (removeTags l))))
    exact adjOk_append_right _ _ (by rw [hsplit]; exact h4)
  exact stripTrailing_adjOk _ h5

theorem cleanChars_edgeOk (l : List Char) : edgeOkB (cleanChars l) = true := by
  show edgeOkB (stripTrailing ((collapseWs (removeEntities (replaceNbsp
      (removeTags l)))).dropWhile pyIsSpace)) = true
  cases hs : stripTrailing ((collapseWs (removeEntities (replaceNbsp
      (removeTags l)))).dropWhile pyIsSpace) with
  | nil => rfl
  | cons e r =>
    have hhead : pyIsSpace e = false := by
      rcases stripTrailing_head ((collapseWs (removeEntities (replaceNbsp
          (removeTags l)))).dropWhile pyIsSpace) with h0 | h0
      · rw [h0] at hs; cases hs
      · rw [hs] at h0
        exact dropWhile_head_not _ e h0.symm
    have hlastex : ∃ x, (e :: r).getLast? = some x := by
      cases hgl : (e :: r).getLast? with
      | none => rw [List.getLast?_eq_none_iff] at hgl; cases hgl
      | some x => exact ⟨x, rfl⟩
    obtain ⟨x, hx⟩ := hlastex
    have hlast : pyIsSpace x = false := stripTrailing_last _ x (hs ▸ hx)
    simp [edgeOkB, hx, hhead, hlast]

/-! ### The interaction loop -/

theorem emitRecord_other (raw : Json) :
    emitRecord (Payload.other raw) = false := rfl

theorem processInteraction_ok_some {inter : Json} {n : Nat} {r : AnswerRecord}
    (h : processInteraction inter n = .ok (some r)) :
    r.question_number = n ∧ typeName r.payload ≠ "Other" := by
  unfold processInteraction at h
  iterate 14 (all_goals (try split at h); all_goals (try cases h))
  rename_i payload hpay hemit
  refine ⟨rfl, ?_⟩
  show typeName payload ≠ "Other"
  cases payload with
  | other raw => rw [emitRecord_other] at hemit; cases hemit
  | mc d => simp [typeName]
  | dragDrop d => simp [typeName]
  | trueFalse d => simp [typeName]
  | blanks d => simp [typeName]
  | dragText d => simp [typeName]

theorem processInteraction_subcontent {inter action : Json} {n : Nat}
    {r : AnswerRecord}
    (hact : dictGet inter "action" (Json.obj []) = .ok action)
    (h : processInteraction inter n = .ok (some r)) :
    dictGet action "subContentId" (Json.str "") = .ok r.subcontent_id := by
  unfold processInteraction at h
  iterate 14 (all_goals (try split at h); all_goals (try cases h))
  simp_all

theorem processInteraction_image {inter action : Json} {n : Nat} {lib : String}
    {out : Option AnswerRecord}
    (hact : dictGet inter "action" (Json.obj []) = .ok action)
    (hlib : dictGet action "library" (Json.str "") = .ok (Json.str lib))
    (himg : classify (Json.str lib) = .ok .image)
    (h : processInteraction inter n = .ok out) : out = none := by
  unfold processInteraction at h
  iterate 14 (all_goals (try split at h); all_goals (try cases h))
  all_goals simp_all

theorem processInteraction_other {inter action : Json} {n : Nat} {lib : String}
    {out : Option AnswerRecord}
    (hact : dictGet inter "action" (Json.obj []) = .ok action)
    (hlib : dictGet action "library" (Json.str "") = .ok (Json.str lib))
    (hoth : classify (Json.str lib) = .ok .other)
    (h : processInteraction inter n = .ok out) : out = none := by
  unfold processInteraction at h
  iterate 14 (all_goals (try split at h); all_goals (try cases h))
  all_goals simp_all [payloadFor]
  all_goals
    (rename_i hpayeq hemit
     rw [← hpayeq, emitRecord_other] at hemit
     cases hemit)

theorem extractLoop_numbers : ∀ (l : List Json) (n : Nat)
    (rs : List AnswerRecord), extractLoop l n = .ok rs →
    rs.map (fun r => r.question_number) = List.range' n rs.length := by
  intro l
  induction l with
  | nil =>
    intro n rs h
    simp only [extractLoop, Except.ok.injEq] at h
    subst h
    rfl
  | cons i rest ih =>
    intro n rs h
    simp only [extractLoop] at h
    split at h
    · cases h
    · exact ih n rs h
    · next r heq =>
      split at h
      · cases h
      · next rs' heq2 =>
        simp only [Except.ok.injEq] at h
        subst h
        have hqn := (processInteraction_ok_some heq).1
        have := ih (n + 1) rs' heq2
        simp only [List.map_cons, List.length_cons, hqn, this]
        rfl

theorem extractLoop_no_other : ∀ (l : List Json) (n : Nat)
    (rs : List AnswerRecord), extractLoop l n = .ok rs →
    rs.all (fun r => typeName r.payload != "Other") = true := by
  intro l
  induction l with
  | nil =>
    intro n rs h
    simp only [extractLoop, Except.ok.injEq] at h
    subst h
    rfl
  | cons i rest ih =>
    intro n rs h
    simp only [extractLoop] at h
    split at h
    · cases h
    · exact ih n rs h
    · next r heq =>
      split at h
      · cases h
      · next rs' heq2 =>
        simp only [Except.ok.injEq] at h
        subst h
        have hne := (processInteraction_ok_some heq).2
        simp only [List.all_cons, Bool.and_eq_true, bne_iff_ne, ne_eq]
        exact ⟨hne, ih (n + 1) rs' heq2⟩

theorem extract_all_numbers {content : Json} {rs : List AnswerRecord}
    (h : extract_all_answers content = .ok rs) :
    rs.map (fun r => r.question_number) = List.range' 1 rs.length := by
  unfold extract_all_answers at h
  iterate 5 (all_goals (try split at h); all_goals (try cases h))
  exact extractLoop_numbers _ 1 rs h

theorem extract_all_no_other {content : Json} {rs : List AnswerRecord}
    (h : extract_all_answers content = .ok rs) :
    rs.all (fun r => typeName r.payload != "Other") = true := by
  unfold extract_all_answers at h
  iterate 5 (all_goals (try split at h); all_goals (try cases h))
  exact extractLoop_no_other _ 1 rs h

/-! ### Dispatch facts -/

theorem classify_contains_multiChoice {s : String}
    (h : strContains s "MultiChoice" = true) :
    classify (Json.str s) = .ok .multiChoice := by
  unfold classify
  simp [pyContains, h]

theorem classify_image {s : String}
    (h1 : strContains s "MultiChoice" = false)
    (h2 : strContains s "DragQuestion" = false)
    (h3 : strContains s "TrueFalse" = false)
    (h4 : strContains s "Blanks" = false)
    (h5 : strContains s "Image" = true) :
    classify (Json.str s) = .ok .image := by
  unfold classify
  simp [pyContains, h1, h2, h3, h4, h5]

/-! ### Multiple Choice: the last flagged entry wins -/

theorem mcFold_correct : ∀ (al : List Json) (i : Nat) (opts : List McOption)
    (ca : Option String) (res : List McOption × Option String),
    mcFold al i opts ca = .ok res →
    res.2 = (match (((List.enumFrom i al).filter fun p =>
        truthyCorrect p.2).map fun p => optionLabel p.1).getLast? with
      | some lbl => some lbl
      | none => ca) := by
  intro al
  induction al with
  | nil =>
    intro i opts ca res h
    simp only [mcFold, Except.ok.injEq] at h
    subst h
    rfl
  | cons a rest ih =>
    intro i opts ca res h
    simp only [mcFold] at h
    split at h
    · cases h
    next textV htext =>
    split at h
    · cases h
    next atext hclean =>
    split at h
    · cases h
    next is_correct hcorr =>
      have htc : truthyCorrect a = pyTruthy is_correct := by
        cases a with
        | obj fs =>
          simp only [dictGet, Except.ok.injEq] at hcorr
          rw [truthyCorrect, hcorr]
        | null => simp [dictGet] at hcorr
        | bool b => simp [dictGet] at hcorr
        | int v => simp [dictGet] at hcorr
        | float q => simp [dictGet] at hcorr
        | str s => simp [dictGet] at hcorr
        | arr xs => simp [dictGet] at hcorr
      have hrec := ih (i + 1) _ _ res h
      rw [show List.enumFrom i (a :: rest) =
        (i, a) :: List.enumFrom (i + 1) rest from rfl]
      by_cases ht : truthyCorrect a = true
      · rw [List.filter_cons_of_pos (by simpa using ht), List.map_cons]
        rw [hrec]
        rw [← htc] at *
        cases hM : (((List.enumFrom (i + 1) rest).filter fun p =>
            truthyCorrect p.2).map fun p => optionLabel p.1).getLast? with
        | none =>
          have : ((List.enumFrom (i + 1) rest).filter fun p =>
              truthyCorrect p.2).map (fun p => optionLabel p.1) = [] := by
            rw [← List.getLast?_eq_none_iff]; exact hM
          rw [this]
          simp [ht]
        | some lbl =>
          obtain ⟨m, M', hM'⟩ : ∃ m M', ((List.enumFrom (i + 1) rest).filter
              fun p => truthyCorrect p.2).map (fun p => optionLabel p.1) =
              m :: M' := by
            cases hx : ((List.enumFrom (i + 1) rest).filter
                fun p => truthyCorrect p.2).map (fun p => optionLabel p.1) with
            | nil => rw [hx, List.getLast?_eq_none_iff.mpr rfl] at hM; cases hM
            | cons m M' => exact ⟨m, M', rfl⟩
          rw [hM']
          rw [hM'] at hM
          rw [List.getLast?_cons_cons, hM]
      · rw [List.filter_cons_of_neg (by simpa using ht)]
        rw [hrec]
        rw [← htc] at *
        simp [ht]

/-! ### Drag and Drop: one `correctElements` entry -/

theorem ddCeLoop_valErr {items : List String} {zi : Nat} {e : Json}
    {rest : List Json} {m : List (String × List Nat)}
    (h : pyToInt e = .valErr) :
    ddCeLoop items zi (e :: rest) m = ddCeLoop items zi rest m := by
  simp [ddCeLoop, h]

theorem ddCeLoop_typeErr {items : List String} {zi : Nat} {e : Json}
    {rest : List Json} {m : List (String × List Nat)}
    (h : pyToInt e = .typeErr) :
    ddCeLoop items zi (e :: rest) m = .error () := by
  simp [ddCeLoop, h]

theorem ddCeLoop_out_of_range {items : List String} {zi : Nat} {e : Json}
    {rest : List Json} {m : List (String × List Nat)} {i : Int}
    (h : pyToInt e = .ok i)
    (hrange : (items.length : Int) ≤ i ∨ i < -(items.length : Int)) :
    ddCeLoop items zi (e :: rest) m = ddCeLoop items zi rest m := by
  simp only [ddCeLoop, h]
  rcases hrange with h1 | h1
  · rw [if_neg (by omega)]
  · rw [if_pos (by omega)]
    have hnone : pyIndex items i = none := by
      unfold pyIndex
      rw [if_neg (by omega), if_neg (by omega)]
    rw [hnone]

theorem ddCeLoop_in_range {items : List String} {zi : Nat} {e : Json}
    {rest : List Json} {m : List (String × List Nat)} {i : Int} {t : String}
    (h : pyToInt e = .ok i)
    (h1 : -(items.length : Int) ≤ i) (h2 : i < (items.length : Int))
    (ht : pyIndex items i = some t) :
    ddCeLoop items zi (e :: rest) m =
      ddCeLoop items zi rest (cmAdd m t zi) := by
  simp only [ddCeLoop, h]
  rw [if_pos h2, ht]

theorem cmAdd_cons_ne {k k' : String} {w : List Nat}
    {m : List (String × List Nat)} {v : Nat} (hne : k' ≠ k) :
    cmAdd ((k', w) :: m) k v = (k', w) :: cmAdd m k v := by
  unfold cmAdd
  by_cases hany : m.any fun p => p.1 = k
  · rw [if_pos (by simp [hany]), if_pos hany]
    simp [hne]
  · rw [if_neg (by simp [hne, hany]), if_neg hany]
    rfl

theorem cmLookup_cmAdd (m : List (String × List Nat)) (k : String) (v : Nat) :
    cmLookup (cmAdd m k v) k = cmLookup m k ++ [v] := by
  induction m with
  | nil => simp [cmAdd, cmLookup]
  | cons p m' ih =>
    obtain ⟨k', w⟩ := p
    by_cases hk : k' = k
    · subst hk
      unfold cmAdd
      rw [if_pos (by simp)]
      have hmap : ((k', w) :: m').map
          (fun p => if p.1 = k' then (p.1, p.2 ++ [v]) else p) =
          (k', w ++ [v]) ::
            m'.map (fun p => if p.1 = k' then (p.1, p.2 ++ [v]) else p) := by
        simp
      rw [hmap]
      simp [cmLookup]
    · rw [cmAdd_cons_ne hk]
      simp only [cmLookup, if_neg hk]
      exact ih

theorem extract_mc_correct_answer {params av : Json} {al : List Json}
    {mc : McData}
    (hav : dictGet params "answers" (Json.arr []) = .ok av)
    (hal : pyIterate av = .ok al)
    (h : extract_multiple_choice_answers params = .ok mc) :
    mc.correct_answer = lastCorrectLabel al := by
  unfold extract_multiple_choice_answers at h
  iterate 8 (all_goals (try split at h); all_goals (try cases h))
  rename_i av2 hav' x1 al' hal' x2 opts ca hfold
  have hav2 : av2 = av := by
    rw [hav'] at hav
    injection hav
  rw [hav2] at hal'
  rw [hal] at hal'
  have hal2 : al = al' := by injection hal'
  have hres : ca = (match (((List.enumFrom 0 al').filter fun p =>
      truthyCorrect p.2).map fun p => optionLabel p.1).getLast? with
    | some lbl => some lbl
    | none => (none : Option String)) :=
    mcFold_correct al' 0 [] none (opts, ca) hfold
  show ca = lastCorrectLabel al
  rw [hal2, hres]
  unfold lastCorrectLabel
  rw [show al'.enum = List.enumFrom 0 al' from rfl]
  cases (((List.enumFrom 0 al').filter fun p => truthyCorrect p.2).map
      fun p => optionLabel p.1).getLast? <;> rfl

/-! ### True/False: the `correct` value's journey -/

theorem extract_tf_correct_answer {fs : List (String × Json)}
    {tf : TrueFalseData}
    (h : extract_true_false_answers (Json.obj fs) = .ok tf) :
    (lookupKey "correct" fs = none → tf.correct_answer = "") ∧
    (∀ b, lookupKey "correct" fs = some (Json.bool b) →
      tf.correct_answer = cond b "True" "False") ∧
    (∀ v, lookupKey "correct" fs = some v → (∀ b, v ≠ Json.bool b) →
      tf.correct_answer = pyCapitalize (pyStr v)) := by
  unfold extract_true_false_answers at h
  iterate 6 (all_goals (try split at h); all_goals (try cases h))
  refine ⟨?_, ?_, ?_⟩
  · intro hnone
    show (match lookupD fs "correct" (Json.str "") with
      | .bool b => cond b "True" "False"
      | v => pyCapitalize (pyStr v)) = ""
    unfold lookupD
    rw [hnone]
    rfl
  · intro b hsome
    show (match lookupD fs "correct" (Json.str "") with
      | .bool b => cond b "True" "False"
      | v => pyCapitalize (pyStr v)) = cond b "True" "False"
    unfold lookupD
    rw [hsome]
    rfl
  · intro v hsome hnb
    show (match lookupD fs "correct" (Json.str "") with
      | .bool b => cond b "True" "False"
      | v => pyCapitalize (pyStr v)) = pyCapitalize (pyStr v)
    unfold lookupD
    rw [hsome]
    cases v with
    | bool b => exact absurd rfl (hnb b)
    | null => rfl
    | int n => rfl
    | float q => rfl
    | str s => rfl
    | arr xs => rfl
    | obj ofs => rfl

/-! ## Claim-level concrete inputs -/

def c1Answers : List Json :=
  [Json.obj [("text", Json.str "a"), ("correct", Json.bool true)],
   Json.obj [("text", Json.str "b"), ("correct", Json.bool true)]]

def c1Params : Json :=
  Json.obj [("question", Json.str "Q?"), ("answers", Json.arr c1Answers)]

def c1Expected : McData :=
  { question := "Q?",
    answers := [{ option := "A", text := "a", is_correct := Json.bool true },
                { option := "B", text := "b", is_correct := Json.bool true }],
    correct_answer := some "B" }

def c2InterMCImage : Json := Json.obj [
  ("action", Json.obj [
    ("library", Json.str "H5P.MultiChoiceImage 1.0"),
    ("params", Json.obj [
      ("question", Json.str "Q?"),
      ("answers", Json.arr [Json.obj [("text", Json.str "a"),
                                      ("correct", Json.bool true)]])])]),
  ("duration", Json.obj [("from", Json.int 0), ("to", Json.int 1)])]

def c2InterTF : Json := Json.obj [
  ("action", Json.obj [
    ("library", Json.str "H5P.TrueFalse 1.0"),
    ("params", Json.obj [("question", Json.str "R?"),
                         ("correct", Json.bool false)])]),
  ("duration", Json.obj [("from", Json.int 1), ("to", Json.int 2)])]

def c2Doc : Json := Json.obj [("interactiveVideo", Json.obj [("assets",
  Json.obj [("interactions", Json.arr [c2InterMCImage, c2InterTF])])])]

def c2wDoc : Json := Json.obj [("interactiveVideo", Json.obj [("assets",
  Json.obj [("interactions", Json.arr [c2InterTF])])])]

def c2wRecord : AnswerRecord :=
  { question_number := 1, library_type := Json.str "H5P.TrueFalse 1.0",
    time_from := Json.int 1, time_to := Json.int 2,
    subcontent_id := Json.str "",
    payload := .trueFalse { question := "R?", correct_answer := "False" } }

def c2wImageAction : List (String × Json) :=
  [("library", Json.str "H5P.Image 1.1"), ("params", Json.obj [])]

def c2wImageInter : Json := Json.obj [
  ("action", Json.obj c2wImageAction),
  ("duration", Json.obj [("from", Json.int 0), ("to", Json.int 1)])]

def c5CrashParams : Json := Json.obj [("question", Json.obj [("task",
  Json.obj [
    ("elements", Json.arr [Json.obj [("type", Json.obj [
      ("library", Json.str "H5P.AdvancedText 1.1"),
      ("params", Json.obj [("text", Json.str "X")])])]]),
    ("dropZones", Json.arr [Json.obj [
      ("label", Json.str "Z1"),
      ("correctElements", Json.arr [Json.null, Json.str "0"])]])])])]

def c6ActionFields : List (String × Json) :=
  [("library", Json.str "H5P.TrueFalse 1.0"),
   ("params", Json.obj [("question", Json.str "Sky?"),
                        ("correct", Json.bool true)]),
   ("subContentId", Json.str "INNER")]

def c6Inter : Json := Json.obj [
  ("action", Json.obj c6ActionFields),
  ("duration", Json.obj [("from", Json.int 5), ("to", Json.int 9)]),
  ("subContentId", Json.str "SIB")]

def c6Doc : Json := Json.obj [("interactiveVideo", Json.obj [("assets",
  Json.obj [("interactions", Json.arr [c6Inter])])])]

def c6Record : AnswerRecord :=
  { question_number := 1, library_type := Json.str "H5P.TrueFalse 1.0",
    time_from := Json.int 5, time_to := Json.int 9,
    subcontent_id := Json.str "INNER",
    payload := .trueFalse { question := "Sky?", correct_answer := "True" } }

def c8BlanksParams : Json :=
  Json.obj [("text", Json.str "<p>The *capital* of France is *Paris*</p>")]

def c8BlanksParamsTagged : Json :=
  Json.obj [("text", Json.str "The *cap<b>ital</b>* of France is *Paris*")]

def c8DragTextParams : Json :=
  Json.obj [("taskDescription", Json.str "Fill in"),
            ("textField", Json.str "The *capital* of France is *Paris*")]

def c8DragTextParamsTagged : Json :=
  Json.obj [("taskDescription", Json.str "Fill in"),
            ("textField", Json.str "The *cap<b>ital</b>* of France is *Paris*")]

def c9wInterTF : Json := Json.obj [
  ("action", Json.obj [
    ("library", Json.str "H5P.TrueFalse 1.0"),
    ("params", Json.obj [("question", Json.str "S?"),
                         ("correct", Json.bool true)])]),
  ("duration", Json.obj [("from", Json.int 0), ("to", Json.int 1)])]

def c9wDoc : Json := Json.obj [("interactiveVideo", Json.obj [("assets",
  Json.obj [("interactions", Json.arr [c9wInterTF])])])]

def c9wRecord : AnswerRecord :=
  { question_number := 1, library_type := Json.str "H5P.TrueFalse 1.0",
    time_from := Json.int 0, time_to := Json.int 1,
    subcontent_id := Json.str "",
    payload := .trueFalse { question := "S?", correct_answer := "True" } }

def c9wOtherAction : List (String × Json) :=
  [("library", Json.str "H5P.Summary 1.10"),
   ("params", Json.obj [("text", Json.str "hi")])]

def c9wOtherInter : Json := Json.obj [
  ("action", Json.obj c9wOtherAction),
  ("duration", Json.obj [("from", Json.int 0), ("to", Json.int 1)])]

/-! ## Claims -/

/-- C1, counterexample to the claim as stated: with two answer entries both
flagged correct, the extractor reports the label of the LAST one ("B"), not
of the first ("A") — the loop overwrites `correct_answer` on every truthy
`correct` flag. -/
theorem c1_counterexample :
    extract_multiple_choice_answers c1Params = .ok c1Expected ∧
    c1Expected.correct_answer = some "B" ∧
    (some "B" : Option String) ≠ some "A" := ⟨rfl, rfl, by decide⟩

/-- C1 (amended): for every Multiple Choice interaction, `correct_answer`
equals the capital-letter label of the LAST entry in the answers list whose
`correct` flag is truthy (absent when no entry is flagged correct); when
several entries are flagged correct, the label of the latest such entry is
chosen. -/
theorem c1_correct_answer_last {params av : Json} {al : List Json}
    {mc : McData}
    (hav : dictGet params "answers" (Json.arr []) = .ok av)
    (hal : pyIterate av = .ok al)
    (h : extract_multiple_choice_answers params = .ok mc) :
    mc.correct_answer = lastCorrectLabel al :=
  extract_mc_correct_answer hav hal h

/-- C1 witness: the amended theorem applied to the two-correct-answers
input. -/
theorem c1_correct_answer_last_witness :
    extract_multiple_choice_answers c1Params = .ok c1Expected ∧
    c1Expected.correct_answer = lastCorrectLabel c1Answers :=
  ⟨rfl, @c1_correct_answer_last c1Params (Json.arr c1Answers) c1Answers
    c1Expected rfl rfl rfl⟩

/-- C2, counterexample to the claim as stated: an interaction whose library
identifier contains "Image" can still consume a question number — the
identifier "H5P.MultiChoiceImage 1.0" also contains "MultiChoice", which is
checked first, so the interaction is extracted as Multiple Choice and
numbered 1, and the following interaction receives 2. -/
theorem c2_counterexample :
    (match extract_all_answers c2Doc with
     | .ok rs => rs.map fun r => (r.question_number, r.library_type)
     | .error _ => []) =
      [(1, Json.str "H5P.MultiChoiceImage 1.0"),
       (2, Json.str "H5P.TrueFalse 1.0")] ∧
    strContains "H5P.MultiChoiceImage 1.0" "Image" = true := ⟨rfl, by decide⟩

/-- C2 (amended): the question numbers of the emitted record sequence are
exactly 1, 2, 3, … in emission order (dense, monotonic, 1-based): an
interaction that yields no record consumes no number.  An interaction is
dispatched to the image branch — no record, no number — when its library
identifier contains "Image" but none of the earlier-checked substrings
"MultiChoice", "DragQuestion", "TrueFalse", "Blanks". -/
theorem c2_numbering_dense :
    (∀ (content : Json) (rs : List AnswerRecord),
      extract_all_answers content = .ok rs →
      rs.map (fun r => r.question_number) = List.range' 1 rs.length) ∧
    (∀ (inter action : Json) (n : Nat) (lib : String)
      (out : Option AnswerRecord),
      dictGet inter "action" (Json.obj []) = .ok action →
      dictGet action "library" (Json.str "") = .ok (Json.str lib) →
      strContains lib "MultiChoice" = false →
      strContains lib "DragQuestion" = false →
      strContains lib "TrueFalse" = false →
      strContains lib "Blanks" = false →
      strContains lib "Image" = true →
      processInteraction inter n = .ok out → out = none) :=
  ⟨fun _ _ h => extract_all_numbers h,
   fun _ _ _ _ _ hact hlib h1 h2 h3 h4 h5 h =>
     processInteraction_image hact hlib (classify_image h1 h2 h3 h4 h5) h⟩

/-- C2 witness: the numbering conjunct applied to a one-question document,
and the image conjunct applied to a pure image interaction. -/
theorem c2_numbering_dense_witness :
    extract_all_answers c2wDoc = .ok [c2wRecord] ∧
    [c2wRecord].map (fun r => r.question_number) =
      List.range' 1 [c2wRecord].length ∧
    (match processInteraction c2wImageInter 5 with
     | .ok out => out = none
     | .error _ => False) := by
  refine ⟨rfl, c2_numbering_dense.1 c2wDoc [c2wRecord] rfl, ?_⟩
  cases hp : processInteraction c2wImageInter 5 with
  | ok out =>
    exact c2_numbering_dense.2 c2wImageInter (Json.obj c2wImageAction) 5
      "H5P.Image 1.1" out rfl rfl (by decide) (by decide) (by decide)
      (by decide) (by decide) hp
  | error e =>
    have hok : processInteraction c2wImageInter 5 = .ok none := rfl
    rw [hok] at hp
    exact Except.noConfusion hp

/-- C3: dispatch on the library identifier checks the six substrings in the
fixed source order with first match winning; in particular every identifier
containing both "MultiChoice" and "DragText" is classified Multiple
Choice. -/
theorem c3_dispatch_priority : ∀ s : String,
    strContains s "MultiChoice" = true → strContains s "DragText" = true →
    classify (Json.str s) = .ok .multiChoice :=
  fun _ h1 _ => classify_contains_multiChoice h1

/-- C3 witness: an identifier containing both substrings resolves to
Multiple Choice. -/
theorem c3_dispatch_priority_witness :
    classify (Json.str "H5P.MultiChoiceDragText 1.0") = .ok .multiChoice :=
  c3_dispatch_priority "H5P.MultiChoiceDragText 1.0" (by decide) (by decide)

/-- C4, counterexample to the claim as stated: angle brackets that do not
form a complete tag survive cleaning — `_clean_html_text` on "> <" returns
"> <", which contains both a literal less-than and a literal greater-than
character. -/
theorem c4_counterexample :
    (cleanHtmlText "> <").data.contains '<' = true ∧
    (cleanHtmlText "> <").data.contains '>' = true := by decide

/-- C4 (amended): for every input string the Text Normalizer output has no
run of two consecutive whitespace characters and no leading or trailing
whitespace, and it contains no complete tag (no substring of the shape
less-than, one or more non-greater-than characters, greater-than); lone
angle brackets can survive.  Empty or absent input yields the empty
string. -/
theorem c4_clean_text_properties :
    (∀ s : String, hasTagB (cleanHtmlText s).data = false ∧
      adjOkB (cleanHtmlText s).data = true ∧
      edgeOkB (cleanHtmlText s).data = true) ∧
    cleanHtmlText "" = "" ∧ cleanJson Json.null = .ok "" ∧
    cleanJson (Json.str "") = .ok "" :=
  ⟨fun s => ⟨cleanChars_noTag s.data, cleanChars_adjOk s.data,
    cleanChars_edgeOk s.data⟩, rfl, rfl, rfl⟩

/-- C5, counterexample to the claim as stated: a `correctElements` entry of
JSON null is NOT silently ignored — `int(None)` raises `TypeError`, which
the `except (ValueError, IndexError)` handler does not catch, so the whole
extraction aborts. -/
theorem c5_counterexample :
    extract_drag_drop_answers c5CrashParams = .error () := rfl

/-- C5 (amended): a `correctElements` entry whose `int(...)` parse fails
with `ValueError` (a malformed string) is silently ignored, as is a parsed
integer that is ≥ len(drag_items) or < -len(drag_items); a parsed integer i
with -len ≤ i < len adds the zone position under the drag item at Python
index i (negative indices count from the end), and an item referenced by
multiple zones accumulates multiple positions; an entry of null/array/object
type raises an uncaught `TypeError` and aborts extraction. -/
theorem c5_correct_elements_handling :
    (∀ items zi e rest m, pyToInt e = .valErr →
      ddCeLoop items zi (e :: rest) m = ddCeLoop items zi rest m) ∧
    (∀ items zi e rest m (i : Int), pyToInt e = .ok i →
      ((items.length : Int) ≤ i ∨ i < -(items.length : Int)) →
      ddCeLoop items zi (e :: rest) m = ddCeLoop items zi rest m) ∧
    (∀ items zi e rest m (i : Int) t, pyToInt e = .ok i →
      -(items.length : Int) ≤ i → i < (items.length : Int) →
      pyIndex items i = some t →
      ddCeLoop items zi (e :: rest) m =
        ddCeLoop items zi rest (cmAdd m t zi)) ∧
    (∀ items zi e rest m, pyToInt e = .typeErr →
      ddCeLoop items zi (e :: rest) m = .error ()) ∧
    (∀ m k v, cmLookup (cmAdd m k v) k = cmLookup m k ++ [v]) :=
  ⟨fun _ _ _ _ _ h => ddCeLoop_valErr h,
   fun _ _ _ _ _ _ h hr => ddCeLoop_out_of_range h hr,
   fun _ _ _ _ _ _ _ h h1 h2 ht => ddCeLoop_in_range h h1 h2 ht,
   fun _ _ _ _ _ h => ddCeLoop_typeErr h,
   cmLookup_cmAdd⟩

/-- C5 witness: the five conjuncts applied to concrete entries over the
drag items ["Paris", "Berlin"]: a malformed string, an out-of-range index,
the negative in-range index -1 (which resolves to "Berlin"), a null entry,
and a repeated-key accumulation. -/
theorem c5_correct_elements_handling_witness :
    ddCeLoop ["Paris", "Berlin"] 0 [Json.str "x"] [] =
      ddCeLoop ["Paris", "Berlin"] 0 [] [] ∧
    ddCeLoop ["Paris", "Berlin"] 0 [Json.str "5"] [] =
      ddCeLoop ["Paris", "Berlin"] 0 [] [] ∧
    ddCeLoop ["Paris", "Berlin"] 0 [Json.str "-1"] [] =
      ddCeLoop ["Paris", "Berlin"] 0 [] (cmAdd [] "Berlin" 0) ∧
    ddCeLoop ["Paris", "Berlin"] 0 [Json.null] [] = .error () ∧
    cmLookup (cmAdd [("Berlin", [0])] "Berlin" 1) "Berlin" = [0] ++ [1] :=
  ⟨c5_correct_elements_handling.1 ["Paris", "Berlin"] 0 (Json.str "x") [] []
     rfl,
   c5_correct_elements_handling.2.1 ["Paris", "Berlin"] 0 (Json.str "5") []
     [] 5 rfl (by decide),
   c5_correct_elements_handling.2.2.1 ["Paris", "Berlin"] 0 (Json.str "-1")
     [] [] (-1) "Berlin" rfl (by decide) (by decide) rfl,
   c5_correct_elements_handling.2.2.2.1 ["Paris", "Berlin"] 0 Json.null []
     [] rfl,
   c5_correct_elements_handling.2.2.2.2 [("Berlin", [0])] "Berlin" 1⟩

/-- C6, counterexample to the claim as stated: the record's
`subcontent_id` is read from INSIDE the `action` object, not from the
interaction-level `subContentId` sibling documented in the spec's JSON
shape — with both present ("INNER" inside `action`, "SIB" as the sibling),
the record carries "INNER". -/
theorem c6_counterexample :
    (match extract_all_answers c6Doc with
     | .ok rs => rs.map fun r => r.subcontent_id
     | .error _ => []) = [Json.str "INNER"] ∧
    dictGet c6Inter "subContentId" (Json.str "") = .ok (Json.str "SIB") ∧
    Json.str "INNER" ≠ Json.str "SIB" :=
  ⟨rfl, rfl, by intro h; injection h with h2; exact absurd h2 (by decide)⟩

/-- C6 (amended): for every interaction, the emitted record's
`subcontent_id` equals the `subContentId` value read from inside the
`action` object (a sibling of `library` and `params`), defaulting to the
empty string when absent there. -/
theorem c6_subcontent_from_action :
    ∀ (inter : Json) (afs : List (String × Json)) (n : Nat)
      (r : AnswerRecord),
      dictGet inter "action" (Json.obj []) = .ok (Json.obj afs) →
      processInteraction inter n = .ok (some r) →
      r.subcontent_id = lookupD afs "subContentId" (Json.str "") := by
  intro inter afs n r hact h
  have h2 := processInteraction_subcontent hact h
  simp only [dictGet, Except.ok.injEq] at h2
  exact h2.symm

/-- C6 witness: the amended theorem applied to the interaction that carries
both an inner and a sibling `subContentId`. -/
theorem c6_subcontent_from_action_witness :
    processInteraction c6Inter 1 = .ok (some c6Record) ∧
    c6Record.subcontent_id = lookupD c6ActionFields "subContentId"
      (Json.str "") :=
  ⟨rfl, c6_subcontent_from_action c6Inter c6ActionFields 1 c6Record rfl rfl⟩

/-- C7, counterexample to the claim as stated: a `.zip` archive input is
unpacked as an archive, but the report for it is written to
`extracted_answers.txt`, not to `<basename>_answer.txt` — only `.h5p`
inputs get the basename-derived name. -/
theorem c7_counterexample :
    isArchiveInput "quiz.zip" = true ∧
    save_output_path none (some "quiz.zip") = "extracted_answers.txt" ∧
    save_output_path none (some "quiz.zip") ≠ "quiz_answer.txt" :=
  ⟨by decide, rfl, by decide⟩

/-- C7 (amended): with no explicit output path, an original input whose
lower-cased name ends in `.h5p` yields
`<basename-without-extension>_answer.txt`; every other input — including
`.zip` archives and direct JSON documents — yields
`extracted_answers.txt`. -/
theorem c7_output_naming :
    (∀ s : String, pyEndsWith (pyLower s) ".h5p" = true →
      save_output_path none (some s) =
        pySplitextRoot (pyBasename s) ++ "_answer.txt") ∧
    (∀ s : String, pyEndsWith (pyLower s) ".h5p" = false →
      save_output_path none (some s) = "extracted_answers.txt") ∧
    save_output_path none none = "extracted_answers.txt" := by
  refine ⟨?_, ?_, rfl⟩
  · intro s h
    have hs : s ≠ "" := by
      intro he; subst he; exact absurd h (by decide)
    simp [save_output_path, h, hs]
  · intro s h
    simp [save_output_path, h]

/-- C7 witness: the naming rule applied to a `.h5p` path (case-insensitive,
directory stripped) and to a non-`.h5p` path. -/
theorem c7_output_naming_witness :
    save_output_path none (some "dir/Quiz.H5P") = "Quiz_answer.txt" ∧
    save_output_path none (some "data.json") = "extracted_answers.txt" := by
  constructor
  · have h := c7_output_naming.1 "dir/Quiz.H5P" (by decide)
    rw [h]; decide
  · exact c7_output_naming.2.1 "data.json" (by decide)

/-- C8: Fill in the Blanks HTML-normalizes the text before the asterisk
scan (a tag inside a starred span does not break extraction), both
extractors return the substrings between star pairs non-greedily and left
to right, the retained Blanks question text still contains the star
markers, and Drag Text keeps the raw `textField` while normalizing each
extracted span. -/
theorem c8_star_extraction :
    extract_fill_in_blanks_answers c8BlanksParams =
      .ok { question := "The *capital* of France is *Paris*",
            answers := ["capital", "Paris"] } ∧
    extract_fill_in_blanks_answers c8BlanksParamsTagged =
      .ok { question := "The *capital* of France is *Paris*",
            answers := ["capital", "Paris"] } ∧
    extract_drag_text_answers c8DragTextParams =
      .ok { question := "Fill in", answers := ["capital", "Paris"],
            text_field := "The *capital* of France is *Paris*" } ∧
    extract_drag_text_answers c8DragTextParamsTagged =
      .ok { question := "Fill in", answers := ["capital", "Paris"],
            text_field := "The *cap<b>ital</b>* of France is *Paris*" } ∧
    strContains "The *capital* of France is *Paris*" "*" = true :=
  ⟨rfl, rfl, rfl, rfl, by decide⟩

/-- C9: an interaction dispatched to the Other branch never emits a record
and never consumes a question number (the branch stores no question text
and "Other" is not a recognized non-text type), and consequently no record
in any output sequence has type "Other". -/
theorem c9_no_other_records :
    (∀ (content : Json) (rs : List AnswerRecord),
      extract_all_answers content = .ok rs →
      rs.all (fun r => typeName r.payload != "Other") = true) ∧
    (∀ (inter action : Json) (n : Nat) (lib : String)
      (out : Option AnswerRecord),
      dictGet inter "action" (Json.obj []) = .ok action →
      dictGet action "library" (Json.str "") = .ok (Json.str lib) →
      classify (Json.str lib) = .ok .other →
      processInteraction inter n = .ok out → out = none) :=
  ⟨fun _ _ h => extract_all_no_other h,
   fun _ _ _ _ _ hact hlib hoth h =>
     processInteraction_other hact hlib hoth h⟩

/-- C9 witness: the record conjunct applied to a one-question document and
the Other conjunct applied to an unrecognized library. -/
theorem c9_no_other_records_witness :
    extract_all_answers c9wDoc = .ok [c9wRecord] ∧
    [c9wRecord].all (fun r => typeName r.payload != "Other") = true ∧
    (match processInteraction c9wOtherInter 3 with
     | .ok out => out = none
     | .error _ => False) := by
  refine ⟨rfl, c9_no_other_records.1 c9wDoc [c9wRecord] rfl, ?_⟩
  cases hp : processInteraction c9wOtherInter 3 with
  | ok out =>
    exact c9_no_other_records.2 c9wOtherInter (Json.obj c9wOtherAction) 3
      "H5P.Summary 1.10" out rfl rfl rfl hp
  | error e =>
    have hok : processInteraction c9wOtherInter 3 = .ok none := rfl
    rw [hok] at hp
    exact Except.noConfusion hp

/-- C10: in True/False extraction an absent `correct` field flows through
the `""` default and the capitalized-string fallback to yield the empty
string, a boolean yields "True"/"False", and any other value yields its
capitalized string form. -/
theorem c10_true_false_correct {fs : List (String × Json)}
    {tf : TrueFalseData}
    (h : extract_true_false_answers (Json.obj fs) = .ok tf) :
    (lookupKey "correct" fs = none → tf.correct_answer = "") ∧
    (∀ b, lookupKey "correct" fs = some (Json.bool b) →
      tf.correct_answer = cond b "True" "False") ∧
    (∀ v, lookupKey "correct" fs = some v → (∀ b, v ≠ Json.bool b) →
      tf.correct_answer = pyCapitalize (pyStr v)) :=
  extract_tf_correct_answer h

/-- C10 witness: the three conjuncts applied to an absent field, a boolean
field, and the string "tRue". -/
theorem c10_true_false_correct_witness :
    extract_true_false_answers (Json.obj [("question", Json.str "S?")]) =
      .ok ⟨"S?", ""⟩ ∧
    (⟨"S?", ""⟩ : TrueFalseData).correct_answer = "" ∧
    extract_true_false_answers (Json.obj [("correct", Json.bool true)]) =
      .ok ⟨"", "True"⟩ ∧
    (⟨"", "True"⟩ : TrueFalseData).correct_answer =
      cond true "True" "False" ∧
    extract_true_false_answers (Json.obj [("correct", Json.str "tRue")]) =
      .ok ⟨"", "True"⟩ ∧
    (⟨"", "True"⟩ : TrueFalseData).correct_answer =
      pyCapitalize (pyStr (Json.str "tRue")) :=
  ⟨rfl,
   (@c10_true_false_correct [("question", Json.str "S?")] ⟨"S?", ""⟩
     rfl).1 rfl,
   rfl,
   (@c10_true_false_correct [("correct", Json.bool true)] ⟨"", "True"⟩
     rfl).2.1 true rfl,
   rfl,
   (@c10_true_false_correct [("correct", Json.str "tRue")] ⟨"", "True"⟩
     rfl).2.2 (Json.str "tRue") rfl (fun b h => Json.noConfusion h)⟩

end H5P


